import Mathlib

/-!
Verification of the bpp-phyl double-recursive parsimony / likelihood core.

Shallow embedding conventions:
* C++ `Bitset` values are embedded as natural numbers used bitwise
  (`Nat.land` / `Nat.lor`); the empty bitset is `0`.
* `unsigned int` scores are embedded as `Nat` (scores only grow by small
  increments from 0, far from 2^32 in any scenario the claims quantify over,
  and all stated equalities are preserved by the embedding).
* C++ `double` branch lengths and probabilities are embedded as `Rat`
  (exact field arithmetic standing for the real-number reading of the code).
* Functions that `throw` are embedded with `Option`/result types.
-/

namespace BppPhyl

/-! ## DRTreeParsimonyScore::computeScoresFromArrays (claim C1)

The C++ routine receives parallel vectors of per-position bitset arrays and
score arrays.  It copies the first input into the output and then, for each
further input `k`, updates every position `i` by the binary Fitch step:
`bs = o[i] & b_k[i]`, `oScore[i] += s_k[i]`, and if `bs == 0` then
`bs = o[i] | b_k[i]` with `oScore[i] += 1`.  We embed one position of one
update step as `combineStep`, a whole-array update as `combineArrays`,
and the full routine as `computeScoresFromArrays` (which, like the C++,
rejects mismatched input counts and an empty input list). -/

/-- One binary Fitch update at a single pattern position: intersect the
bitsets and add the scores; on empty intersection take the union and pay
one extra change (lines 263-270 of the source file). -/
def combineStep (acc : Nat × Nat) (inp : Nat × Nat) : Nat × Nat :=
  let bs := acc.1 &&& inp.1
  let sc := acc.2 + inp.2
  if bs = 0 then (acc.1 ||| inp.1, sc + 1) else (bs, sc)

/-- One iteration of the outer `k` loop: apply `combineStep` at every
position of the accumulator array (positions are paired
(bitset, score), kept in lockstep exactly as the two C++ vectors are). -/
def combineArrays (acc inp : List (Nat × Nat)) : List (Nat × Nat) :=
  List.zipWith combineStep acc inp

/-- `DRTreeParsimonyScore::computeScoresFromArrays`.  Inputs are the list of
bitset arrays and the parallel list of score arrays; `none` embeds the two
thrown `Exception`s (mismatched input counts, fewer than one input).  The
result pairs the output bitset array with the output score array. -/
def computeScoresFromArrays (iBitsets iScores : List (List Nat)) :
    Option (List Nat × List Nat) :=
  if iScores.length = iBitsets.length then
    match iBitsets, iScores with
    | b0 :: brest, s0 :: srest =>
        some ((List.foldl combineArrays (b0.zip s0)
          (List.zipWith (fun b s => b.zip s) brest srest)).unzip)
    | _, _ => none
  else none

/-- Bitwise AND of a list of bitsets, seeded by a first bitset. -/
def bitAndAll (b0 : Nat) (bs : List Nat) : Nat := bs.foldl (· &&& ·) b0

/-- Bitwise OR of a list of bitsets, seeded by a first bitset. -/
def bitOrAll (b0 : Nat) (bs : List Nat) : Nat := bs.foldl (· ||| ·) b0

/-- `x` is a sub-bitset of `y`. -/
def BitSub (x y : Nat) : Prop := ∀ i, x.testBit i = true → y.testBit i = true

theorem foldl_land_zero (l : List Nat) : List.foldl (· &&& ·) 0 l = 0 := by
  induction l with
  | nil => rfl
  | cons x xs ih =>
      simpa using ih

theorem lor_ne_zero_left (x y : Nat) (h : x ≠ 0) : x ||| y ≠ 0 := by
  intro hz
  apply h
  apply Nat.zero_of_testBit_eq_false
  intro i
  have := congrArg (fun n => Nat.testBit n i) hz
  simp only [Nat.testBit_or, Nat.zero_testBit] at this
  exact (Bool.or_eq_false_iff.mp this).1

theorem bitSub_refl (x : Nat) : BitSub x x := fun _ h => h

theorem bitSub_lor_left (x y : Nat) : BitSub x (x ||| y) := by
  intro i h
  simp [Nat.testBit_or, h]

theorem bitSub_land_left (x y : Nat) : BitSub (x &&& y) x := by
  intro i h
  simp only [Nat.testBit_and, Bool.and_eq_true] at h
  exact h.1

theorem bitOrAll_mono (l : List Nat) :
    ∀ x y : Nat, BitSub x y → BitSub (bitOrAll x l) (bitOrAll y l) := by
  induction l with
  | nil => intro x y h; exact h
  | cons a as ih =>
      intro x y h
      refine ih _ _ ?_
      intro i hi
      simp only [Nat.testBit_or, Bool.or_eq_true] at hi ⊢
      rcases hi with hx | ha
      · exact Or.inl (h i hx)
      · exact Or.inr ha

/-- The per-position residue of the outer `k` loop: the left fold of the
binary Fitch step over the column of inputs at one pattern position. -/
theorem posFold_of_andAll_ne_zero (cs : List (Nat × Nat)) :
    ∀ c0 : Nat × Nat, bitAndAll c0.1 (cs.map Prod.fst) ≠ 0 →
      List.foldl combineStep c0 cs =
        (bitAndAll c0.1 (cs.map Prod.fst), c0.2 + (cs.map Prod.snd).sum) := by
  induction cs with
  | nil => intro c0 _; simp [bitAndAll]
  | cons c rest ih =>
      intro c0 h
      have hstep : c0.1 &&& c.1 ≠ 0 := by
        intro hz
        apply h
        simpa [bitAndAll, hz] using foldl_land_zero (rest.map Prod.fst)
      have hc : combineStep c0 c = (c0.1 &&& c.1, c0.2 + c.2) := by
        simp [combineStep, hstep]
      have h2 : bitAndAll (c0.1 &&& c.1) (rest.map Prod.fst) ≠ 0 := by
        simpa [bitAndAll] using h
      calc List.foldl combineStep c0 (c :: rest)
      _ = List.foldl combineStep (c0.1 &&& c.1, c0.2 + c.2) rest := by
            simp [hc]
      _ = (bitAndAll (c0.1 &&& c.1) (rest.map Prod.fst),
            c0.2 + c.2 + (rest.map Prod.snd).sum) := ih _ h2
      _ = (bitAndAll c0.1 ((c :: rest).map Prod.fst),
            c0.2 + ((c :: rest).map Prod.snd).sum) := by
            simp [bitAndAll, Nat.add_assoc]

theorem posFold_score_ge (cs : List (Nat × Nat)) :
    ∀ c0 : Nat × Nat,
      c0.2 + (cs.map Prod.snd).sum ≤ (List.foldl combineStep c0 cs).2 := by
  induction cs with
  | nil => intro c0; simp
  | cons c rest ih =>
      intro c0
      have hstep : c0.2 + c.2 ≤ (combineStep c0 c).2 := by
        by_cases hz : c0.1 &&& c.1 = 0 <;> simp [combineStep, hz]
      calc c0.2 + ((c :: rest).map Prod.snd).sum
      _ = c0.2 + c.2 + (rest.map Prod.snd).sum := by simp [Nat.add_assoc]
      _ ≤ (combineStep c0 c).2 + (rest.map Prod.snd).sum := by
            exact Nat.add_le_add_right hstep _
      _ ≤ (List.foldl combineStep (combineStep c0 c) rest).2 := ih _
      _ = (List.foldl combineStep c0 (c :: rest)).2 := rfl

theorem posFold_score_le (cs : List (Nat × Nat)) :
    ∀ c0 : Nat × Nat,
      (List.foldl combineStep c0 cs).2 ≤
        c0.2 + (cs.map Prod.snd).sum + cs.length := by
  induction cs with
  | nil => intro c0; simp
  | cons c rest ih =>
      intro c0
      have hstep : (combineStep c0 c).2 ≤ c0.2 + c.2 + 1 := by
        by_cases hz : c0.1 &&& c.1 = 0 <;> simp [combineStep, hz]
      calc (List.foldl combineStep c0 (c :: rest)).2
      _ = (List.foldl combineStep (combineStep c0 c) rest).2 := rfl
      _ ≤ (combineStep c0 c).2 + (rest.map Prod.snd).sum + rest.length := ih _
      _ ≤ c0.2 + c.2 + 1 + (rest.map Prod.snd).sum + rest.length := by
            exact Nat.add_le_add_right (Nat.add_le_add_right hstep _) _
      _ = c0.2 + ((c :: rest).map Prod.snd).sum + (c :: rest).length := by
            simp; omega

theorem posFold_bitset_ne_zero (cs : List (Nat × Nat)) :
    ∀ c0 : Nat × Nat, c0.1 ≠ 0 → (List.foldl combineStep c0 cs).1 ≠ 0 := by
  induction cs with
  | nil => intro c0 h; exact h
  | cons c rest ih =>
      intro c0 h
      refine ih _ ?_
      by_cases hz : c0.1 &&& c.1 = 0
      · simpa [combineStep, hz] using lor_ne_zero_left c0.1 c.1 h
      · simp [combineStep, hz]

theorem posFold_bitset_sub_or (cs : List (Nat × Nat)) :
    ∀ c0 : Nat × Nat,
      BitSub (List.foldl combineStep c0 cs).1
        (bitOrAll c0.1 (cs.map Prod.fst)) := by
  induction cs with
  | nil => intro c0; exact bitSub_refl _
  | cons c rest ih =>
      intro c0
      have hstep : BitSub (combineStep c0 c).1 (c0.1 ||| c.1) := by
        by_cases hz : c0.1 &&& c.1 = 0
        · simpa [combineStep, hz] using bitSub_refl (c0.1 ||| c.1)
        · simp only [combineStep, hz, if_false]
          intro i hi
          simp only [Nat.testBit_and, Bool.and_eq_true] at hi
          simp [Nat.testBit_or, hi.1]
      intro i hi
      have h1 := ih (combineStep c0 c) i hi
      have h2 := bitOrAll_mono (rest.map Prod.fst) _ _ hstep i h1
      simpa [bitOrAll] using h2

/-- Either every step of the per-position fold took the intersection branch
(and the result is the global intersection with the plain score sum), or at
least one extra change was paid. -/
theorem posFold_cases (cs : List (Nat × Nat)) :
    ∀ c0 : Nat × Nat,
      List.foldl combineStep c0 cs =
          (bitAndAll c0.1 (cs.map Prod.fst), c0.2 + (cs.map Prod.snd).sum) ∨
        c0.2 + (cs.map Prod.snd).sum + 1 ≤ (List.foldl combineStep c0 cs).2 := by
  induction cs with
  | nil => intro c0; left; simp [bitAndAll]
  | cons c rest ih =>
      intro c0
      by_cases hz : c0.1 &&& c.1 = 0
      · right
        have hc : combineStep c0 c = (c0.1 ||| c.1, c0.2 + c.2 + 1) := by
          simp [combineStep, hz]
        have := posFold_score_ge rest (combineStep c0 c)
        rw [hc] at this
        calc c0.2 + ((c :: rest).map Prod.snd).sum + 1
        _ = c0.2 + c.2 + 1 + (rest.map Prod.snd).sum := by simp; omega
        _ ≤ (List.foldl combineStep (c0.1 ||| c.1, c0.2 + c.2 + 1) rest).2 :=
              this
        _ = (List.foldl combineStep c0 (c :: rest)).2 := by rw [← hc]; rfl
      · have hc : combineStep c0 c = (c0.1 &&& c.1, c0.2 + c.2) := by
          simp [combineStep, hz]
        rcases ih (combineStep c0 c) with h | h
        · left
          rw [show List.foldl combineStep c0 (c :: rest)
                = List.foldl combineStep (combineStep c0 c) rest from rfl, h, hc]
          simp [bitAndAll, Nat.add_assoc]
        · right
          rw [hc] at h
          calc c0.2 + ((c :: rest).map Prod.snd).sum + 1
          _ = c0.2 + c.2 + (rest.map Prod.snd).sum + 1 := by simp; omega
          _ ≤ (List.foldl combineStep (combineStep c0 c) rest).2 := by
                rw [hc]; simpa using h
          _ = (List.foldl combineStep c0 (c :: rest)).2 := rfl

theorem combineArrays_length (a b : List (Nat × Nat)) :
    (combineArrays a b).length = min a.length b.length := by
  simp [combineArrays]

theorem combineArrays_getD (a b : List (Nat × Nat)) (i : Nat)
    (ha : i < a.length) (hb : i < b.length) :
    (combineArrays a b).getD i (0, 0) =
      combineStep (a.getD i (0, 0)) (b.getD i (0, 0)) := by
  have hz : i < (combineArrays a b).length := by
    rw [combineArrays_length]; omega
  rw [List.getD_eq_getElem _ _ hz, List.getD_eq_getElem _ _ ha,
    List.getD_eq_getElem _ _ hb]
  simp [combineArrays]

theorem foldl_combineArrays_length (rest : List (List (Nat × Nat))) :
    ∀ a0 : List (Nat × Nat), (∀ x ∈ rest, x.length = a0.length) →
      (List.foldl combineArrays a0 rest).length = a0.length := by
  induction rest with
  | nil => intro a0 _; rfl
  | cons x rest ih =>
      intro a0 hlen
      have hx : x.length = a0.length := hlen x (by simp)
      have hca : (combineArrays a0 x).length = a0.length := by
        rw [combineArrays_length]; omega
      have := ih (combineArrays a0 x)
        (fun y hy => by rw [hca]; exact hlen y (by simp [hy]))
      simpa [hca] using this

theorem foldl_combineArrays_getD (rest : List (List (Nat × Nat))) :
    ∀ a0 : List (Nat × Nat), (∀ x ∈ rest, x.length = a0.length) →
      ∀ i, i < a0.length →
      (List.foldl combineArrays a0 rest).getD i (0, 0) =
        List.foldl combineStep (a0.getD i (0, 0))
          (rest.map (fun x => x.getD i (0, 0))) := by
  induction rest with
  | nil => intros; rfl
  | cons x rest ih =>
      intro a0 hlen i hi
      have hx : x.length = a0.length := hlen x (by simp)
      have hca : (combineArrays a0 x).length = a0.length := by
        rw [combineArrays_length]; omega
      have h1 := ih (combineArrays a0 x)
        (fun y hy => by rw [hca]; exact hlen y (by simp [hy])) i (by omega)
      calc (List.foldl combineArrays a0 (x :: rest)).getD i (0, 0)
      _ = (List.foldl combineArrays (combineArrays a0 x) rest).getD i (0, 0) :=
            rfl
      _ = List.foldl combineStep ((combineArrays a0 x).getD i (0, 0))
            (rest.map (fun y => y.getD i (0, 0))) := h1
      _ = List.foldl combineStep
            (combineStep (a0.getD i (0, 0)) (x.getD i (0, 0)))
            (rest.map (fun y => y.getD i (0, 0))) := by
            rw [combineArrays_getD a0 x i hi (by omega)]
      _ = List.foldl combineStep (a0.getD i (0, 0))
            ((x :: rest).map (fun y => y.getD i (0, 0))) := rfl

theorem zip_getD (b s : List Nat) (i : Nat) (hb : i < b.length)
    (hs : i < s.length) :
    (b.zip s).getD i (0, 0) = (b.getD i 0, s.getD i 0) := by
  have hz : i < (b.zip s).length := by
    rw [List.length_zip]; omega
  rw [List.getD_eq_getElem _ _ hz, List.getD_eq_getElem _ _ hb,
    List.getD_eq_getElem _ _ hs]
  simp

theorem zipWith_zip_lengths (L : Nat) :
    ∀ bs ss : List (List Nat), (∀ x ∈ bs, x.length = L) →
      (∀ x ∈ ss, x.length = L) →
      ∀ y ∈ List.zipWith (fun b s => b.zip s) bs ss, y.length = L := by
  intro bs
  induction bs with
  | nil => intro ss _ _ y hy; simp at hy
  | cons b bs ih =>
      intro ss hb hs y hy
      cases ss with
      | nil => simp at hy
      | cons s ss =>
          simp only [List.zipWith_cons_cons, List.mem_cons] at hy
          rcases hy with rfl | hy
          · rw [List.length_zip, hb b (by simp), hs s (by simp)]
            exact Nat.min_self L
          · exact ih ss (fun x hx => hb x (by simp [hx]))
              (fun x hx => hs x (by simp [hx])) y hy

theorem zipWith_zip_cols (i L : Nat) (hi : i < L) :
    ∀ bs ss : List (List Nat), (∀ x ∈ bs, x.length = L) →
      (∀ x ∈ ss, x.length = L) →
      (List.zipWith (fun b s => b.zip s) bs ss).map
          (fun x => x.getD i (0, 0)) =
        List.zipWith (fun b s => (b.getD i 0, s.getD i 0)) bs ss := by
  intro bs
  induction bs with
  | nil => intro ss _ _; simp
  | cons b bs ih =>
      intro ss hb hs
      cases ss with
      | nil => simp
      | cons s ss =>
          simp only [List.zipWith_cons_cons, List.map_cons]
          rw [zip_getD b s i (by rw [hb b (by simp)]; exact hi)
              (by rw [hs s (by simp)]; exact hi),
            ih ss (fun x hx => hb x (by simp [hx]))
              (fun x hx => hs x (by simp [hx]))]

theorem zipWith_pair_map_fst (f : List Nat → Nat) :
    ∀ bs ss : List (List Nat), bs.length = ss.length →
      (List.zipWith (fun b s => (f b, f s)) bs ss).map Prod.fst = bs.map f := by
  intro bs
  induction bs with
  | nil => intro ss _; simp
  | cons b bs ih =>
      intro ss h
      cases ss with
      | nil => simp at h
      | cons s ss =>
          simp only [List.zipWith_cons_cons, List.map_cons]
          rw [ih ss (by simpa using h)]

theorem zipWith_pair_map_snd (f : List Nat → Nat) :
    ∀ bs ss : List (List Nat), bs.length = ss.length →
      (List.zipWith (fun b s => (f b, f s)) bs ss).map Prod.snd = ss.map f := by
  intro bs
  induction bs with
  | nil => intro ss h; cases ss with
      | nil => simp
      | cons s ss => simp at h
  | cons b bs ih =>
      intro ss h
      cases ss with
      | nil => simp at h
      | cons s ss =>
          simp only [List.zipWith_cons_cons, List.map_cons]
          rw [ih ss (by simpa using h)]

theorem getD_map_fst (l : List (Nat × Nat)) (i : Nat) (hi : i < l.length) :
    (l.map Prod.fst).getD i 0 = (l.getD i (0, 0)).1 := by
  have hm : i < (l.map Prod.fst).length := by simpa using hi
  rw [List.getD_eq_getElem _ _ hm, List.getD_eq_getElem _ _ hi]
  simp

theorem getD_map_snd (l : List (Nat × Nat)) (i : Nat) (hi : i < l.length) :
    (l.map Prod.snd).getD i 0 = (l.getD i (0, 0)).2 := by
  have hm : i < (l.map Prod.snd).length := by simpa using hi
  rw [List.getD_eq_getElem _ _ hm, List.getD_eq_getElem _ _ hi]
  simp

/-- Claim C1, amended.  For a non-empty family of equal-length input arrays
whose first bitset at position `i` is non-empty, `computeScoresFromArrays`
succeeds and, at every position `i`: if the bitwise AND of all input bitsets
is non-empty the output bitset is that intersection and the output score is
the sum of the input scores (as the original claim states); if the
intersection is empty the routine instead performs the left-to-right pairwise
Fitch fold, so the output score lies between `sum + 1` and
`sum + (number of inputs - 1)` and the output bitset is a non-empty
sub-bitset of the bitwise OR of the inputs; with exactly two inputs the
output bitset is exactly that OR, as the original claim states. -/
theorem computeScoresFromArrays_pos_spec
    (b0 s0 : List Nat) (brest srest : List (List Nat)) (L i : Nat)
    (hb0 : b0.length = L) (hs0 : s0.length = L)
    (hbr : ∀ x ∈ brest, x.length = L) (hsr : ∀ x ∈ srest, x.length = L)
    (hn : brest.length = srest.length)
    (hi : i < L) (h0 : b0.getD i 0 ≠ 0) :
    ∃ oB oS,
      computeScoresFromArrays (b0 :: brest) (s0 :: srest) = some (oB, oS) ∧
      (bitAndAll (b0.getD i 0) (brest.map fun x => x.getD i 0) ≠ 0 →
        oB.getD i 0 = bitAndAll (b0.getD i 0) (brest.map fun x => x.getD i 0) ∧
        oS.getD i 0 = s0.getD i 0 + (srest.map fun x => x.getD i 0).sum) ∧
      (bitAndAll (b0.getD i 0) (brest.map fun x => x.getD i 0) = 0 →
        s0.getD i 0 + (srest.map fun x => x.getD i 0).sum + 1 ≤ oS.getD i 0 ∧
        oS.getD i 0 ≤
          s0.getD i 0 + (srest.map fun x => x.getD i 0).sum + brest.length ∧
        BitSub (oB.getD i 0)
          (bitOrAll (b0.getD i 0) (brest.map fun x => x.getD i 0)) ∧
        oB.getD i 0 ≠ 0) ∧
      (∀ b1 s1, brest = [b1] → srest = [s1] →
        bitAndAll (b0.getD i 0) (brest.map fun x => x.getD i 0) = 0 →
        oB.getD i 0 = (b0.getD i 0 ||| b1.getD i 0)) := by
  have hcond : (s0 :: srest).length = (b0 :: brest).length := by
    simp [hn]
  set a0 : List (Nat × Nat) := b0.zip s0 with ha0
  set rests : List (List (Nat × Nat)) :=
    List.zipWith (fun b s => b.zip s) brest srest with hrests
  set res : List (Nat × Nat) := List.foldl combineArrays a0 rests with hres
  have ha0len : a0.length = L := by
    rw [ha0, List.length_zip, hb0, hs0]; exact Nat.min_self L
  have hrlen : ∀ y ∈ rests, y.length = a0.length := by
    intro y hy
    rw [ha0len]
    exact zipWith_zip_lengths L brest srest hbr hsr y hy
  have hreslen : res.length = L := by
    rw [hres, foldl_combineArrays_length rests a0 hrlen, ha0len]
  have hcomp : computeScoresFromArrays (b0 :: brest) (s0 :: srest) =
      some (res.map Prod.fst, res.map Prod.snd) := by
    rw [computeScoresFromArrays, if_pos hcond]
    simp only [List.unzip_eq_map]
  refine ⟨res.map Prod.fst, res.map Prod.snd, hcomp, ?_⟩
  -- reduce the output entries at position i to the per-position fold
  have hcol : res.getD i (0, 0) =
      List.foldl combineStep (b0.getD i 0, s0.getD i 0)
        (List.zipWith (fun b s => (b.getD i 0, s.getD i 0)) brest srest) := by
    rw [hres, foldl_combineArrays_getD rests a0 hrlen i (by omega)]
    rw [ha0, zip_getD b0 s0 i (by omega) (by omega)]
    rw [hrests, zipWith_zip_cols i L hi brest srest hbr hsr]
  set cs : List (Nat × Nat) :=
    List.zipWith (fun b s => (b.getD i 0, s.getD i 0)) brest srest with hcs
  have hcsfst : cs.map Prod.fst = brest.map fun x => x.getD i 0 := by
    rw [hcs]
    have := zipWith_pair_map_fst (fun x => x.getD i 0) brest srest hn
    simpa using this
  have hcssnd : cs.map Prod.snd = srest.map fun x => x.getD i 0 := by
    rw [hcs]
    have := zipWith_pair_map_snd (fun x => x.getD i 0) brest srest hn
    simpa using this
  have hcslen : cs.length = brest.length := by
    rw [hcs, List.length_zipWith, hn]; exact Nat.min_self _
  have hOBi : (res.map Prod.fst).getD i 0 = (res.getD i (0, 0)).1 :=
    getD_map_fst res i (by omega)
  have hOSi : (res.map Prod.snd).getD i 0 = (res.getD i (0, 0)).2 :=
    getD_map_snd res i (by omega)
  refine ⟨?_, ?_, ?_⟩
  · intro hAnd
    rw [← hcsfst] at hAnd
    have := posFold_of_andAll_ne_zero cs (b0.getD i 0, s0.getD i 0) hAnd
    constructor
    · rw [hOBi, hcol, this]
      simp [hcsfst]
    · rw [hOSi, hcol, this]
      simp [hcssnd]
  · intro hAnd
    rw [← hcsfst] at hAnd
    have hge : s0.getD i 0 + (srest.map fun x => x.getD i 0).sum + 1 ≤
        (res.getD i (0, 0)).2 := by
      rcases posFold_cases cs (b0.getD i 0, s0.getD i 0) with h | h
      · exfalso
        have hne := posFold_bitset_ne_zero cs (b0.getD i 0, s0.getD i 0) h0
        rw [h] at hne
        exact hne hAnd
      · rw [hcol, ← hcssnd]
        simpa using h
    have hle : (res.getD i (0, 0)).2 ≤
        s0.getD i 0 + (srest.map fun x => x.getD i 0).sum + brest.length := by
      have := posFold_score_le cs (b0.getD i 0, s0.getD i 0)
      rw [hcol, ← hcssnd, ← hcslen]
      simpa using this
    have hsub : BitSub (res.getD i (0, 0)).1
        (bitOrAll (b0.getD i 0) (brest.map fun x => x.getD i 0)) := by
      have := posFold_bitset_sub_or cs (b0.getD i 0, s0.getD i 0)
      rw [hcol, ← hcsfst]
      simpa using this
    have hnz : (res.getD i (0, 0)).1 ≠ 0 := by
      rw [hcol]
      exact posFold_bitset_ne_zero cs (b0.getD i 0, s0.getD i 0) h0
    exact ⟨by rw [hOSi]; exact hge, by rw [hOSi]; exact hle,
      by rw [hOBi]; exact hsub, by rw [hOBi]; exact hnz⟩
  · intro b1 s1 hb1 hs1 hAnd
    subst hb1; subst hs1
    have hcs1 : cs = [(b1.getD i 0, s1.getD i 0)] := by rw [hcs]; rfl
    have hA : b0.getD i 0 &&& b1.getD i 0 = 0 := by
      simpa [bitAndAll] using hAnd
    rw [hOBi, hcol, hcs1, List.foldl_cons, List.foldl_nil]
    simp only [combineStep]
    rw [if_pos hA]

/-- Claim C1 as literally stated is false for three or more inputs: with
input bitsets `{0}`, `{1}`, `{2}` (encoded 1, 2, 4) and scores 0, the global
intersection is empty, so the claim predicts output score
`0 + 0 + 0 + 1 = 1`, but the pairwise fold pays one extra change at each of
the two empty pairwise intersections and returns score 2. -/
theorem computeScoresFromArrays_claim_counterexample :
    computeScoresFromArrays [[1], [2], [4]] [[0], [0], [0]] =
        some ([7], [2]) ∧
      ¬ computeScoresFromArrays [[1], [2], [4]] [[0], [0], [0]] =
        some ([7], [0 + 0 + 0 + 1]) := by
  constructor
  · rfl
  · intro h
    rw [show (0 + 0 + 0 + 1 : Nat) = 1 from rfl] at h
    have : computeScoresFromArrays [[1], [2], [4]] [[0], [0], [0]] =
        some ([7], [2]) := rfl
    rw [this] at h
    simp at h

/-- Witness for `computeScoresFromArrays_pos_spec` at the concrete input
with bitset arrays `[3], [1]` and score arrays `[5], [2]`. -/
theorem computeScoresFromArrays_pos_spec_witness :
    ∃ oB oS,
      computeScoresFromArrays [[3], [1]] [[5], [2]] = some (oB, oS) ∧
      (bitAndAll (List.getD [3] 0 0) ([[1]].map fun x => x.getD 0 0) ≠ 0 →
        oB.getD 0 0 =
          bitAndAll (List.getD [3] 0 0) ([[1]].map fun x => x.getD 0 0) ∧
        oS.getD 0 0 =
          List.getD [5] 0 0 + ([[2]].map fun x => x.getD 0 0).sum) ∧
      (bitAndAll (List.getD [3] 0 0) ([[1]].map fun x => x.getD 0 0) = 0 →
        List.getD [5] 0 0 + ([[2]].map fun x => x.getD 0 0).sum + 1 ≤
          oS.getD 0 0 ∧
        oS.getD 0 0 ≤ List.getD [5] 0 0 +
          ([[2]].map fun x => x.getD 0 0).sum + List.length [[1]] ∧
        BitSub (oB.getD 0 0)
          (bitOrAll (List.getD [3] 0 0) ([[1]].map fun x => x.getD 0 0)) ∧
        oB.getD 0 0 ≠ 0) ∧
      (∀ b1 s1, [[1]] = [b1] → [[2]] = [s1] →
        bitAndAll (List.getD [3] 0 0) ([[1]].map fun x => x.getD 0 0) = 0 →
        oB.getD 0 0 = (List.getD [3] 0 0 ||| b1.getD 0 0)) :=
  computeScoresFromArrays_pos_spec [3] [5] [[1]] [[2]] 1 0 rfl rfl
    (by simp) (by simp) rfl (by decide) (by decide)

/-! ## DRTreeParsimonyScore::getScore and getScoreForSite (claim C2)

After `computeScores()` has run, `DRTreeParsimonyData` holds one root score
per distinct site pattern, one weight per pattern, and the site-to-pattern
map built during pattern compression.  Both accessors only read this cached
state; we embed the state as a structure and the accessors as the literal
loops/lookups of the source (lines 221-235). -/

/-- The cached per-pattern state read by the score accessors once
`computeScores()` has populated it. -/
structure DRTreeParsimonyCache where
  rootScores : List Nat
  weights : List Nat
  rootArrayPositions : List Nat
  nbDistinctSites : Nat

/-- `DRTreeParsimonyData::getRootScore`. -/
def getRootScore (d : DRTreeParsimonyCache) (i : Nat) : Nat :=
  d.rootScores.getD i 0

/-- `DRTreeParsimonyData::getWeight`. -/
def getWeight (d : DRTreeParsimonyCache) (i : Nat) : Nat :=
  d.weights.getD i 0

/-- `DRTreeParsimonyData::getRootArrayPosition`. -/
def getRootArrayPosition (d : DRTreeParsimonyCache) (site : Nat) : Nat :=
  d.rootArrayPositions.getD site 0

/-- `DRTreeParsimonyScore::getScore`: the loop
`for i < nbDistinctSites_: score += rootScore(i) * weight(i)`. -/
def getScore (d : DRTreeParsimonyCache) : Nat :=
  (List.range d.nbDistinctSites).foldl
    (fun score i => score + getRootScore d i * getWeight d i) 0

/-- `DRTreeParsimonyScore::getScoreForSite`: a single cached lookup. -/
def getScoreForSite (d : DRTreeParsimonyCache) (site : Nat) : Nat :=
  getRootScore d (getRootArrayPosition d site)

theorem getScore_loop_sum (d : DRTreeParsimonyCache) :
    ∀ n s, (List.range n).foldl
        (fun score i => score + getRootScore d i * getWeight d i) s =
      s + ∑ i ∈ Finset.range n, getWeight d i * getRootScore d i := by
  intro n
  induction n with
  | zero => intro s; simp
  | succ n ih =>
      intro s
      rw [List.range_succ, List.foldl_append, ih s, Finset.sum_range_succ]
      simp [Nat.mul_comm, Nat.add_assoc]

/-- Claim C2: once the caches are populated, the total parsimony score is
the weighted sum over distinct patterns of the cached root scores, and the
per-site score is the single cached lookup at the site's pattern position
(no traversal is performed: both functions are pure reads of the cache). -/
theorem getScore_getScoreForSite_spec (d : DRTreeParsimonyCache) :
    getScore d =
        (∑ i ∈ Finset.range d.nbDistinctSites,
          getWeight d i * getRootScore d i) ∧
      ∀ site, getScoreForSite d site =
        getRootScore d (getRootArrayPosition d site) := by
  refine ⟨?_, fun _ => rfl⟩
  rw [getScore, getScore_loop_sum d d.nbDistinctSites 0, Nat.zero_add]

/-! ## The tree structure (TreeTemplate / Node)

`TreeTemplate<N>` owns a root `Node`; every node carries an `int` id, an
optional branch length (`distanceToFather`) and an ordered son list, and a
node's neighbors are its father (if any) followed by its sons.  Since the
tree owns its nodes exclusively (no sharing), we embed a tree as a rose
tree; father pointers become the enclosing context.  Named node/branch
properties are not used by any claim under verification and are omitted. -/

inductive RTree where
  | node (id : Int) (dist : Option Rat) (sons : List RTree)

namespace RTree

mutual

/-- Boolean structural equality of trees. -/
def beq : RTree → RTree → Bool
  | node i d s, node j e t => i == j && d == e && beqList s t

/-- Boolean structural equality of forests. -/
def beqList : List RTree → List RTree → Bool
  | [], [] => true
  | a :: as, b :: bs => beq a b && beqList as bs
  | _, _ => false

end

mutual

theorem beq_iff : ∀ a b : RTree, beq a b = true ↔ a = b
  | node i d s, node j e t => by
      simp only [beq, Bool.and_eq_true, beq_iff_eq]
      rw [beqList_iff s t]
      constructor
      · rintro ⟨⟨rfl, rfl⟩, rfl⟩; rfl
      · rintro h; injection h with h1 h2 h3; exact ⟨⟨h1, h2⟩, h3⟩

theorem beqList_iff : ∀ a b : List RTree, beqList a b = true ↔ a = b
  | [], [] => by simp [beqList]
  | [], _ :: _ => by simp [beqList]
  | _ :: _, [] => by simp [beqList]
  | a :: as, b :: bs => by
      simp only [beqList, Bool.and_eq_true]
      rw [beq_iff a b, beqList_iff as bs]
      constructor
      · rintro ⟨rfl, rfl⟩; rfl
      · rintro h; cases h; exact ⟨rfl, rfl⟩

end

instance : DecidableEq RTree := fun a b =>
  decidable_of_iff (beq a b = true) (beq_iff a b)

/-- The node id (`Node::getId`). -/
def rootId : RTree → Int
  | node i _ _ => i

/-- The branch length above this node (`Node::getDistanceToFather`), when
present. -/
def rootDist : RTree → Option Rat
  | node _ d _ => d

/-- The ordered son list (`Node::getSons`). -/
def sons : RTree → List RTree
  | node _ _ s => s

/-- `Node::isLeaf` (equivalently `hasNoSon`): no sons. -/
def isLeaf (t : RTree) : Bool := t.sons.isEmpty

@[simp] theorem rootId_node (i : Int) (d : Option Rat) (s : List RTree) :
    (node i d s).rootId = i := rfl

@[simp] theorem rootDist_node (i : Int) (d : Option Rat) (s : List RTree) :
    (node i d s).rootDist = d := rfl

@[simp] theorem sons_node (i : Int) (d : Option Rat) (s : List RTree) :
    (node i d s).sons = s := rfl

/-- Replace the branch length above a node
(`Node::setDistanceToFather` / `deleteDistanceToFather`). -/
def setDist (t : RTree) (d : Option Rat) : RTree :=
  match t with
  | node i _ s => node i d s

mutual

/-- Number of nodes of the subtree (`TreeTemplateTools::getNumberOfNodes`). -/
def size : RTree → Nat
  | node _ _ s => sizeList s + 1

/-- Number of nodes of a forest. -/
def sizeList : List RTree → Nat
  | [] => 0
  | t :: ts => size t + sizeList ts

end

/-- `TreeTemplate::unroot` returns `false` (tree unchanged) or `true`
(root merged away); `threw` embeds the `UnrootedTreeException`. -/
inductive UnrootResult where
  | threw
  | failed (t : RTree)
  | ok (t : RTree)
deriving DecidableEq

/-- `TreeTemplate::isRooted`: the root has exactly 2 sons. -/
def isRooted (t : RTree) : Bool := t.sons.length = 2

/-- `TreeTemplate::unroot` (source lines 226-266).  If the root does not
have exactly two sons, throw `UnrootedTreeException`.  If both sons are
leaves, return `false` without touching the tree.  Otherwise make sure a
subtree sits in position 0 (swapping the two sons if needed), merge the two
branch lengths below the root onto son 2 (a sum when both are present, a
copy when only son 1 has one, untouched otherwise), delete son 1's length,
and replace the root by son 1 with son 2 appended to its sons. -/
def unroot (t : RTree) : UnrootResult :=
  match t with
  | node rid rdist rsons =>
    match rsons with
    | [a, b] =>
        if a.isLeaf && b.isLeaf then .failed (node rid rdist [a, b])
        else
          let s1 := if a.isLeaf then b else a
          let s2 := if a.isLeaf then a else b
          let s2d : Option Rat :=
            match s1.rootDist, s2.rootDist with
            | some d1, some d2 => some (d1 + d2)
            | some d1, none => some d1
            | none, d2 => d2
          .ok (node s1.rootId none (s1.sons ++ [s2.setDist s2d]))
    | _ => .threw

theorem size_setDist (t : RTree) (d : Option Rat) :
    (t.setDist d).size = t.size := by
  cases t; rfl

theorem sizeList_append (a b : List RTree) :
    sizeList (a ++ b) = sizeList a + sizeList b := by
  induction a with
  | nil => simp [sizeList]
  | cons x xs ih => simp [sizeList, ih]; omega

theorem size_pos (t : RTree) : 1 ≤ t.size := by
  cases t with
  | node i d s => simp [size]

/-- Claim C7: `unroot` throws `UnrootedTreeException` exactly when the root
does not have two sons; with two leaf sons it fails (returning `false`)
without touching the tree rather than collapsing it into a single branch;
in every other rooted case it succeeds, the root node disappears (one node
fewer), the new root carries no branch length, and when both former sons
carried branch lengths the surviving merged branch (the son appended last)
carries their sum. -/
theorem unroot_spec (t : RTree) :
    (t.sons.length ≠ 2 → unroot t = .threw) ∧
    (∀ a b, t.sons = [a, b] → a.isLeaf = true → b.isLeaf = true →
      unroot t = .failed t) ∧
    (∀ a b, t.sons = [a, b] → ¬(a.isLeaf = true ∧ b.isLeaf = true) →
      ∃ r, unroot t = .ok r ∧
        r.size + 1 = t.size ∧
        r.rootDist = none ∧
        (∀ d1 d2, a.rootDist = some d1 → b.rootDist = some d2 →
          ∃ s rest, r.sons = rest ++ [s] ∧ s.rootDist = some (d1 + d2))) := by
  obtain ⟨rid, rdist, rsons⟩ := t
  refine ⟨?_, ?_, ?_⟩
  · intro hlen
    match rsons, hlen with
    | [], _ => rfl
    | [_], _ => rfl
    | [_, _], h => exact absurd rfl h
    | _ :: _ :: _ :: _, _ => rfl
  · intro a b hs ha hb
    simp only [sons_node] at hs
    subst hs
    simp [unroot, ha, hb]
  · intro a b hs hnl
    simp only [sons_node] at hs
    subst hs
    by_cases hA : a.isLeaf = true
    · have hB : b.isLeaf = false := by
        cases hBv : b.isLeaf
        · rfl
        · exact absurd ⟨hA, hBv⟩ hnl
      refine ⟨node b.rootId none (b.sons ++ [a.setDist
        (match b.rootDist, a.rootDist with
          | some d1, some d2 => some (d1 + d2)
          | some d1, none => some d1
          | none, d2 => d2)]), ?_, ?_, rfl, ?_⟩
      · simp [unroot, hA, hB]
      · have h2 : size b = sizeList b.sons + 1 := by
          obtain ⟨i1, dd, ss⟩ := b; simp [size]
        simp only [size, sizeList_append, sizeList, size_setDist]
        omega
      · intro d1 d2 hda hdb
        refine ⟨_, b.sons, rfl, ?_⟩
        rw [hda, hdb]
        obtain ⟨ia, da, sa⟩ := a
        simp only [setDist, rootDist_node]
        rw [Rat.add_comm]
    · have hA2 : a.isLeaf = false := by
        cases hAv : a.isLeaf
        · rfl
        · exact absurd hAv hA
      refine ⟨node a.rootId none (a.sons ++ [b.setDist
        (match a.rootDist, b.rootDist with
          | some d1, some d2 => some (d1 + d2)
          | some d1, none => some d1
          | none, d2 => d2)]), ?_, ?_, rfl, ?_⟩
      · simp [unroot, hA2]
      · have h2 : size a = sizeList a.sons + 1 := by
          obtain ⟨i1, dd, ss⟩ := a; simp [size]
        simp only [size, sizeList_append, sizeList, size_setDist]
        omega
      · intro d1 d2 hda hdb
        refine ⟨_, a.sons, rfl, ?_⟩
        rw [hda, hdb]
        obtain ⟨ib, db, sb⟩ := b
        simp only [setDist, rootDist_node]

/-! ## resetNodesId and getNodesId (claim C9)

`TreeTemplate::resetNodesId` collects all nodes with `getNodes()` and sets
the id of the i-th collected node to `i`; `getNodesId` returns the ids
collected by the same `TreeTemplateTools` traversal.  Modelled from the
spec: the traversal itself (`TreeTemplateTools::getNodes` / `getNodesId`)
is not among the provided sources; section 4.1 of the spec describes it as
an implementation-defined but deterministic traversal enumerating every
node exactly once, so we fix the postorder traversal (sons first, then the
node) for both functions, which is all the claim depends on. -/

mutual

/-- Ids of the subtree in traversal order (see the section comment). -/
def postorderIds : RTree → List Int
  | node i _ s => postorderIdsList s ++ [i]

/-- Ids of a forest in traversal order. -/
def postorderIdsList : List RTree → List Int
  | [] => []
  | t :: ts => postorderIds t ++ postorderIdsList ts

end

/-- `TreeTemplate::getNodesId`. -/
def getNodesId (t : RTree) : List Int := postorderIds t

mutual

/-- Relabel the subtree with consecutive ids starting at `k`, in the same
traversal order used by `getNodesId`; returns the next unused id. -/
def resetGo : RTree → Nat → RTree × Nat
  | node _ d s, k =>
      let p := resetGoList s k
      (node (Int.ofNat p.2) d p.1, p.2 + 1)

/-- Relabel a forest with consecutive ids starting at `k`. -/
def resetGoList : List RTree → Nat → List RTree × Nat
  | [], k => ([], k)
  | t :: ts, k =>
      let p := resetGo t k
      let q := resetGoList ts p.2
      (p.1 :: q.1, q.2)

end

/-- `TreeTemplate::resetNodesId`: assign the dense ids `0..n-1` following
the node-collection order. -/
def resetNodesId (t : RTree) : RTree := (resetGo t 0).1

mutual

theorem resetGo_spec : ∀ (t : RTree) (k : Nat),
    postorderIds (resetGo t k).1 = (List.range' k t.size).map Int.ofNat ∧
      (resetGo t k).2 = k + t.size
  | node i d s, k => by
      obtain ⟨h1, h2⟩ := resetGoList_spec s k
      constructor
      · show postorderIdsList (resetGoList s k).1 ++
            [Int.ofNat (resetGoList s k).2] = _
        rw [h1, h2]
        have hcat : List.range' k (sizeList s + 1) =
            List.range' k (sizeList s) ++ [k + sizeList s] := by
          simpa using @List.range'_concat 1 k (sizeList s)
        rw [show (node i d s).size = sizeList s + 1 from rfl, hcat]
        simp
      · show (resetGoList s k).2 + 1 = _
        rw [h2]
        show k + sizeList s + 1 = k + (sizeList s + 1)
        omega

theorem resetGoList_spec : ∀ (ts : List RTree) (k : Nat),
    postorderIdsList (resetGoList ts k).1 =
        (List.range' k (sizeList ts)).map Int.ofNat ∧
      (resetGoList ts k).2 = k + sizeList ts
  | [], k => by
      constructor
      · show postorderIdsList [] = _
        simp [postorderIdsList, sizeList]
      · show k = k + sizeList []
        simp [sizeList]
  | t :: ts, k => by
      obtain ⟨h1, h2⟩ := resetGo_spec t k
      obtain ⟨h3, h4⟩ := resetGoList_spec ts (resetGo t k).2
      constructor
      · show postorderIds (resetGo t k).1 ++
            postorderIdsList (resetGoList ts (resetGo t k).2).1 = _
        rw [h1, h3, h2]
        have happ := List.range'_append k (size t) (sizeList ts) 1
        simp only [one_mul] at happ
        rw [show sizeList (t :: ts) = size t + sizeList ts from rfl,
          Nat.add_comm (size t) (sizeList ts), ← List.map_append, happ]
      · show (resetGoList ts (resetGo t k).2).2 = _
        rw [h4, h2]
        show k + size t + sizeList ts = k + sizeList (t :: ts)
        show k + size t + sizeList ts = k + (size t + sizeList ts)
        omega

end

/-- Claim C9: `resetNodesId()` followed by `getNodesId()` yields exactly
the dense id set `{0, ..., n-1}` (as the id list of the traversal, with no
duplicates) for any tree with `n` nodes. -/
theorem resetNodesId_getNodesId_spec (t : RTree) :
    getNodesId (resetNodesId t) = (List.range t.size).map Int.ofNat ∧
      (getNodesId (resetNodesId t)).Nodup ∧
      ∀ k : Int, k ∈ getNodesId (resetNodesId t) ↔ 0 ≤ k ∧ k < (t.size : Int) := by
  have h := (resetGo_spec t 0).1
  have hmain : getNodesId (resetNodesId t) = (List.range t.size).map Int.ofNat := by
    rw [getNodesId, resetNodesId, h, List.range_eq_range']
  refine ⟨hmain, ?_, ?_⟩
  · rw [hmain]
    refine List.Nodup.map ?_ (List.nodup_range t.size)
    intro x y hxy
    exact Int.ofNat.inj hxy
  · intro k
    rw [hmain]
    simp only [List.mem_map, List.mem_range, Int.ofNat_eq_natCast]
    constructor
    · rintro ⟨m, hm, rfl⟩
      omega
    · rintro ⟨h0, hlt⟩
      exact ⟨k.toNat, by omega, by omega⟩

/-! ## Locating nodes by id

`TreeTemplate::getNode(id)` delegates to
`TreeTemplateTools::searchFirstNodeWithId`, which checks a node and then
its sons in order, returning the first node carrying the id.  We embed the
search (`subtreeWithId`), the membership test `containsId`
(`TreeTemplateTools::hasNodeWithId`), the list of all subtrees in the same
preorder, and the father lookup that the pointer-based C++ code gets for
free from `Node::getFather`. -/

mutual

/-- Does a node with this id occur in the subtree? -/
def containsId : RTree → Int → Bool
  | node i _ s, target => i == target || containsIdList s target

/-- Does a node with this id occur in the forest? -/
def containsIdList : List RTree → Int → Bool
  | [], _ => false
  | t :: ts, target => containsId t target || containsIdList ts target

end

mutual

/-- First subtree (preorder: node, then sons left to right) whose root
carries the id — `TreeTemplateTools::searchFirstNodeWithId`. -/
def subtreeWithId : RTree → Int → Option RTree
  | node i d s, target =>
      if i = target then some (node i d s) else subtreeWithIdList s target

/-- First subtree of a forest whose root carries the id. -/
def subtreeWithIdList : List RTree → Int → Option RTree
  | [], _ => none
  | t :: ts, target =>
      match subtreeWithId t target with
      | some u => some u
      | none => subtreeWithIdList ts target

end

mutual

/-- All subtrees, in the same preorder as `subtreeWithId` searches. -/
def subtrees : RTree → List RTree
  | node i d s => node i d s :: subtreesList s

/-- All subtrees of a forest. -/
def subtreesList : List RTree → List RTree
  | [] => []
  | t :: ts => subtrees t ++ subtreesList ts

end

/-- The id of every node of the tree, one entry per node. -/
def idsOf (t : RTree) : List Int := (subtrees t).map rootId

mutual

/-- Id of the father of the (first) node carrying `target` — what the
pointer-based C++ reads off `Node::getFather`. -/
def fatherIdOf : RTree → Int → Option Int
  | node i _ s, target =>
      if s.any (fun c => c.rootId == target) then some i
      else fatherIdOfList s target

/-- Father id search in a forest. -/
def fatherIdOfList : List RTree → Int → Option Int
  | [], _ => none
  | t :: ts, target =>
      match fatherIdOf t target with
      | some u => some u
      | none => fatherIdOfList ts target

end

/-! ## rootAt and newOutGroup (claim C8)

`TreeTemplate::rootAt(newRoot)` (source lines 463-489) walks the path from
the current root to `newRoot` and reverses it: each path node loses its
path son, receives that son's branch length, and is appended as a last son
of the next path node; finally the new root's branch length is deleted.
`newOutGroup` (lines 491-522) then splices a fresh two-son root above the
outgroup.  Branch properties, which travel together with the branch
lengths, are not modelled (no claim mentions them). -/

/-- One descent step of `rootAt`: `up` is the already-reversed father side
of the current node (`none` at the start).  At the target the reversed
father side is appended to the sons and the branch length deleted;
otherwise the walk continues into the first son whose subtree contains the
target, appending the flipped current node (carrying the path son's branch
length and its remaining sons) to that son. -/
def splitFirstP (p : RTree → Bool) : List RTree →
    Option (List RTree × RTree × List RTree)
  | [] => none
  | t :: ts =>
      if p t then some ([], t, ts)
      else (splitFirstP p ts).map (fun x => (t :: x.1, x.2.1, x.2.2))

theorem splitFirstP_eq (p : RTree → Bool) :
    ∀ (l pre post : List RTree) (x : RTree),
      splitFirstP p l = some (pre, x, post) →
      l = pre ++ x :: post ∧ p x = true ∧ ∀ y ∈ pre, p y = false := by
  intro l
  induction l with
  | nil => intro pre post x h; simp [splitFirstP] at h
  | cons t ts ih =>
      intro pre post x h
      rw [splitFirstP] at h
      by_cases hp : p t
      · rw [if_pos hp] at h
        injection h with h
        injection h with h1 h
        injection h with h2 h3
        subst h1; subst h2; subst h3
        exact ⟨rfl, hp, by intro y hy; simp at hy⟩
      · rw [if_neg hp, Option.map_eq_some'] at h
        obtain ⟨⟨pre2, x2, post2⟩, hsp, heq⟩ := h
        injection heq with h1 h
        injection h with h2 h3
        obtain ⟨hl, hx, hpre⟩ := ih pre2 post2 x2 hsp
        subst h2; subst h3
        rw [← h1]
        refine ⟨by rw [hl]; rfl, hx, ?_⟩
        intro y hy
        rcases List.mem_cons.mp hy with rfl | hy2
        · exact Bool.eq_false_iff.mpr hp
        · exact hpre y hy2

theorem splitFirstP_sizeOf (p : RTree → Bool) (l pre post : List RTree)
    (x : RTree) (h : splitFirstP p l = some (pre, x, post)) :
    sizeOf x < sizeOf l := by
  obtain ⟨hl, _, _⟩ := splitFirstP_eq p l pre post x h
  subst hl
  exact List.sizeOf_lt_of_mem (by simp)

def rootAtDown (target : Int) : RTree → Option RTree → RTree
  | node i d s, up =>
    if i = target then node i none (s ++ up.toList)
    else
      match h : splitFirstP (fun c => containsId c target) s with
      | some (pre, c, post) =>
          rootAtDown target c
            (some (node i c.rootDist (pre ++ post ++ up.toList)))
      | none => node i d s
termination_by t _ => sizeOf t
decreasing_by
  have hm := splitFirstP_sizeOf _ _ _ _ _ h
  simp only [RTree.node.sizeOf_spec]
  omega

/-- `TreeTemplate::rootAt` (source lines 463-489): no-op when the target is
already the root; otherwise, a rooted tree is first unrooted (source line
466, `if (isRooted()) unroot();` — a no-op when `unroot` returns `false`,
and unreachable for `threw` since the call is guarded by `isRooted`), and
then the path from the root down to the target is reversed. -/
def rootAt (t : RTree) (target : Int) : RTree :=
  if t.rootId = target then t
  else
    let t1 : RTree :=
      if t.isRooted then
        match unroot t with
        | .ok r => r
        | .failed r => r
        | .threw => t
      else t
    rootAtDown target t1 none

/-- Modelled from the spec: `TreeTemplate::getNextId` delegates to
`TreeTools::getMPNUId`, which is not among the provided sources; the spec
(section 4.1 and the `getNextId` documentation in the header) requires only
an id value not currently used in the tree.  We take the smallest natural
number that is not a node id (a pigeonhole argument guarantees one exists
among `0..n`). -/
def getNextId (t : RTree) : Int :=
  match (List.range ((idsOf t).length + 1)).find?
      (fun n => !((idsOf t).contains (Int.ofNat n))) with
  | some n => Int.ofNat n
  | none => 0

/-- `TreeTemplate::newOutGroup` (source lines 491-522): return unchanged if
the outgroup is the root, or if the tree is rooted and the outgroup is
already one of the root's two sons; otherwise remember the root id (rooted
case, after unrooting) or a fresh id (unrooted case), reroot at the
outgroup's father, detach the outgroup, and put a fresh two-son root above
the old root and the outgroup, halving the outgroup's branch length onto
both sides when it has one. -/
def newOutGroup (t : RTree) (outId : Int) : RTree :=
  if t.rootId = outId then t
  else if t.isRooted && t.sons.any (fun s => s.rootId == outId) then t
  else
    let rid : Int := if t.isRooted then t.rootId else getNextId t
    let t1 : RTree :=
      if t.isRooted then
        match unroot t with
        | .ok r => r
        | .failed r => r
        | .threw => t
      else t
    match fatherIdOf t1 outId with
    | none => t1
    | some fid =>
      let t2 := rootAt t1 fid
      match t2.sons.find? (fun c => c.rootId == outId) with
      | none => t2
      | some out =>
        let oldRoot := node t2.rootId t2.rootDist
          (t2.sons.eraseP (fun c => c.rootId == outId))
        match out.rootDist with
        | some l =>
            node rid none
              [oldRoot.setDist (some (l / 2)), out.setDist (some (l / 2))]
        | none => node rid none [oldRoot, out]

/-! ## The double-recursive parsimony cache and NNI (claims C3, C4, C5)

`computeScores` fills, for every node and incident edge, the Fitch
(bitset, score) array of everything on the far side of that edge
(post-order pass for the arrays toward sons, pre-order pass for the array
toward the father), each entry produced by `computeScoresFromArrays` over
the far node's other neighbors, neighbors ordered father first, then sons.
At a fixed site pattern those cached arrays are exactly the values of the
recursive functions below: `fitchPair` is the array toward a son (the
combine over that son's sons, or the leaf data), and the `up` argument
threaded by the walkers is the array toward the father.  `leafData` maps a
leaf id to its observed bitset at the pattern (the `DRTreeParsimonyData`
leaf arrays). -/

mutual

/-- The cached directional array (at one pattern) that a father holds
toward this subtree: the leaf bitset with score 0 for leaves, otherwise
the `computeScoresFromArrays` fold over the subtree root's sons. -/
def fitchPair (ld : Int → Nat) : RTree → Nat × Nat
  | node i _ [] => (ld i, 0)
  | node _ _ (s :: ss) =>
      List.foldl combineStep (fitchPair ld s) (fitchPairList ld ss)

/-- Directional arrays of a forest of sons, in son order. -/
def fitchPairList (ld : Int → Nat) : List RTree → List (Nat × Nat)
  | [] => []
  | t :: ts => fitchPair ld t :: fitchPairList ld ts

end

/-- The single-pattern content of `computeScoresFromArrays`: `none` embeds
the thrown `Exception` on an empty input family. -/
def foldPairs : List (Nat × Nat) → Option (Nat × Nat)
  | [] => none
  | p :: ps => some (List.foldl combineStep p ps)

/-- Sons remaining after removing the two at positions `p` and `u`
(`TreeTemplateTools::getRemainingNeighbors` restricted to sons). -/
def eraseTwo (s : List RTree) (p u : Nat) : List RTree :=
  (s.enum.filter (fun x => x.1 ≠ p ∧ x.1 ≠ u)).map Prod.snd

/-- The uncle index chosen by `testNNI` (source line 289). -/
def testNNIUncleIndex (parentPosition : Nat) : Nat :=
  if parentPosition > 1 then parentPosition - 1 else 1 - parentPosition

/-- The uncle index chosen by `doNNI` (source line 364). -/
def doNNIUncleIndex (parentPosition : Nat) : Nat :=
  if parentPosition > 1 then parentPosition - 1 else 1 - parentPosition

/-- One-pattern core of `testNNI` (source lines 276-347).  Walk down to the
grandfather of the node carrying `nodeId`, threading the cached
father-direction array `up`; at the grandfather, recombine the cached
arrays exactly as the source does: the hypothetical grandfather array uses
its remaining neighbors plus the son, the hypothetical parent total uses
the parent's remaining neighbors plus the uncle plus that hypothetical
array; return the proposed per-pattern score.  `none` embeds the thrown
exceptions and out-of-range accesses. -/
def testNNIGo (ld : Int → Nat) (nodeId : Int) : RTree → Option (Nat × Nat) → Option Nat
  | node _ _ s, up =>
    match splitFirstP (fun p => p.sons.any (fun c => c.rootId == nodeId)) s with
    | some (pre, parent, post) =>
        let pPos := pre.length
        let uncleIdx := testNNIUncleIndex pPos
        match s.get? uncleIdx with
        | none => none
        | some uncle =>
          match splitFirstP (fun c => c.rootId == nodeId) parent.sons with
          | none => none
          | some (preS, son, postS) =>
            let sonPair := fitchPair ld son
            let parentRem := fitchPairList ld (preS ++ postS)
            let unclePair := fitchPair ld uncle
            let gfRem := up.toList ++ fitchPairList ld (eraseTwo s pPos uncleIdx)
            match foldPairs (gfRem ++ [sonPair]) with
            | none => none
            | some gfPair =>
              match foldPairs (parentRem ++ [unclePair] ++ [gfPair]) with
              | none => none
              | some pPair => some pPair.2
    | none =>
        match h : splitFirstP (fun c => containsId c nodeId) s with
        | some (pre, c, post) =>
            match foldPairs (up.toList ++ fitchPairList ld (pre ++ post)) with
            | none => none
            | some up2 => testNNIGo ld nodeId c (some up2)
        | none => none
termination_by t _ => sizeOf t
decreasing_by
  have hm := splitFirstP_sizeOf _ _ _ _ _ h
  simp only [RTree.node.sizeOf_spec]
  omega

/-- Total parsimony score of a tree recomputed from scratch
(`computeScores` then `getScore`): the root's cached total at each pattern
is the combine over all its neighbors, i.e. its sons, which is `fitchPair`
at the root; `getScore` then weights each pattern (claim C2). -/
def scoreOfTree (ld : Nat → Int → Nat) (w : Nat → Nat) (n : Nat)
    (t : RTree) : Nat :=
  ∑ i ∈ Finset.range n, w i * (fitchPair (ld i) t).2

/-- `DRTreeParsimonyScore::testNNI`: the preconditions (the node and its
parent must both have a father), then the recombination of cached arrays at
each pattern, then `proposed - current` as the delta. -/
def testNNI (ld : Nat → Int → Nat) (w : Nat → Nat) (n : Nat)
    (t : RTree) (nodeId : Int) : Option Int :=
  if t.rootId = nodeId then none
  else if t.sons.any (fun c => c.rootId == nodeId) then none
  else if ∀ i ∈ List.range n, (testNNIGo (ld i) nodeId t none).isSome then
    some ((∑ i ∈ Finset.range n,
        (w i : Int) * ((testNNIGo (ld i) nodeId t none).getD 0 : Int)) -
      (scoreOfTree ld w n t : Int))
  else none

/-- `DRTreeParsimonyScore::doNNI` surgery core: locate the grandfather of the
node carrying `nodeId` and swap: the parent loses the son and gains the
uncle (appended), the grandfather loses the uncle and gains the son
(appended). -/
def doNNIGo (nodeId : Int) : RTree → Option RTree
  | node i d s =>
    match splitFirstP (fun p => p.sons.any (fun c => c.rootId == nodeId)) s with
    | some (pre, parent, post) =>
        let pPos := pre.length
        let uncleIdx := doNNIUncleIndex pPos
        match s.get? uncleIdx with
        | none => none
        | some uncle =>
          match splitFirstP (fun c => c.rootId == nodeId) parent.sons with
          | none => none
          | some (preS, son, postS) =>
            let parentNew := node parent.rootId parent.rootDist
              ((preS ++ postS) ++ [uncle])
            some (node i d
              (((s.set pPos parentNew).eraseIdx uncleIdx) ++ [son]))
    | none =>
        match h : splitFirstP (fun c => containsId c nodeId) s with
        | some (pre, c, post) =>
            match doNNIGo nodeId c with
            | some c2 => some (node i d (pre ++ c2 :: post))
            | none => none
        | none => none
termination_by t => sizeOf t
decreasing_by
  have hm := splitFirstP_sizeOf _ _ _ _ _ h
  simp only [RTree.node.sizeOf_spec]
  omega

/-- `DRTreeParsimonyScore::doNNI` with its preconditions (the node and its
parent must both have a father). -/
def doNNI (t : RTree) (nodeId : Int) : Option RTree :=
  if t.rootId = nodeId then none
  else if t.sons.any (fun c => c.rootId == nodeId) then none
  else doNNIGo nodeId t

/-! ## Fitch pair theory for the NNI delta proof

A cached pair `p = (bitset, score)` determines the cost function
`Efun p s = p.2 + (0 if state s in the bitset else 1)`: the minimal number
of changes on the pair's side of an edge when the near endpoint is in state
`s`, edge included.  Claim C3 (for bifurcating trees) reduces to the facts
that `combineStep` both realizes the minimum of the sum of two such
functions and again has a cost function of the same two-valued shape. -/

/-- Cost-with-edge function encoded by a cached (bitset, score) pair. -/
def Efun (p : Nat × Nat) (s : Nat) : Nat :=
  p.2 + (if p.1.testBit s then 0 else 1)

/-- `f` varies by at most 1 between any two states. -/
def Lip1 (f : Nat → Nat) : Prop := ∀ s t, f s ≤ f t + 1

/-- `c` is the minimum value of `f` over all states, and it is attained. -/
def IsMinOf (c : Nat) (f : Nat → Nat) : Prop :=
  (∀ s, c ≤ f s) ∧ ∃ s, f s = c

/-- Two functions with the same infimum, witnessed constructively in both
directions. -/
def EquiMin (f g : Nat → Nat) : Prop :=
  (∀ s, ∃ t, g t ≤ f s) ∧ (∀ s, ∃ t, f t ≤ g s)

theorem Efun_ge (p : Nat × Nat) (s : Nat) : p.2 ≤ Efun p s :=
  Nat.le_add_right _ _

theorem Efun_le (p : Nat × Nat) (s : Nat) : Efun p s ≤ p.2 + 1 := by
  rw [Efun]
  by_cases h : p.1.testBit s <;> simp [h]

theorem lip1_Efun (p : Nat × Nat) : Lip1 (Efun p) := by
  intro s t
  calc Efun p s ≤ p.2 + 1 := Efun_le p s
  _ ≤ Efun p t + 1 := Nat.add_le_add_right (Efun_ge p t) 1

theorem Efun_of_testBit (p : Nat × Nat) (s : Nat) (h : p.1.testBit s = true) :
    Efun p s = p.2 := by
  simp [Efun, h]

theorem Efun_of_not_testBit (p : Nat × Nat) (s : Nat)
    (h : p.1.testBit s = false) : Efun p s = p.2 + 1 := by
  simp [Efun, h]

theorem exists_testBit (x : Nat) (h : x ≠ 0) : ∃ s, x.testBit s = true := by
  by_contra hc
  push_neg at hc
  exact h (Nat.zero_of_testBit_eq_false
    (fun i => by
      have := hc i
      exact Bool.eq_false_iff.mpr this))

theorem combineStep_and (p q : Nat × Nat) (h : p.1 &&& q.1 ≠ 0) :
    combineStep p q = (p.1 &&& q.1, p.2 + q.2) := by
  simp [combineStep, h]

theorem combineStep_or (p q : Nat × Nat) (h : p.1 &&& q.1 = 0) :
    combineStep p q = (p.1 ||| q.1, p.2 + q.2 + 1) := by
  simp [combineStep, h]

theorem combineStep_fst_ne_zero (p q : Nat × Nat) (hp : p.1 ≠ 0) :
    (combineStep p q).1 ≠ 0 := by
  by_cases h : p.1 &&& q.1 = 0
  · rw [combineStep_or p q h]
    exact lor_ne_zero_left p.1 q.1 hp
  · rw [combineStep_and p q h]
    exact h

theorem combineStep_score_ge (p q : Nat × Nat) :
    p.2 + q.2 ≤ (combineStep p q).2 := by
  by_cases h : p.1 &&& q.1 = 0
  · rw [combineStep_or p q h]; omega
  · rw [combineStep_and p q h]

/-- The combined score is the minimum over states of the sum of the two
cost functions (Fitch's lemma at one merge, lower-bound half and attained
half). -/
theorem combineStep_isMinOf (p q : Nat × Nat) (hp : p.1 ≠ 0) (hq : q.1 ≠ 0) :
    IsMinOf (combineStep p q).2 (fun s => Efun p s + Efun q s) := by
  have hboth : ∀ s, p.1.testBit s = true → q.1.testBit s = true →
      (p.1 &&& q.1).testBit s = true := by
    intro s h1 h2
    simp [Nat.testBit_and, h1, h2]
  by_cases h : p.1 &&& q.1 = 0
  · rw [combineStep_or p q h]
    constructor
    · intro s
      show p.2 + q.2 + 1 ≤ Efun p s + Efun q s
      by_cases hps : p.1.testBit s = true
      · have hqs : q.1.testBit s = false := by
          cases hv : q.1.testBit s
          · rfl
          · have := hboth s hps hv
            rw [h] at this
            simp [Nat.zero_testBit] at this
        rw [Efun_of_testBit p s hps, Efun_of_not_testBit q s hqs]
        omega
      · have hps2 : p.1.testBit s = false := by
          cases hv : p.1.testBit s
          · rfl
          · exact absurd hv hps
        have h1 := Efun_of_not_testBit p s hps2
        have h2 := Efun_ge q s
        omega
    · obtain ⟨s, hs⟩ := exists_testBit p.1 hp
      refine ⟨s, ?_⟩
      show Efun p s + Efun q s = p.2 + q.2 + 1
      have hqs : q.1.testBit s = false := by
        cases hv : q.1.testBit s
        · rfl
        · have := hboth s hs hv
          rw [h] at this
          simp [Nat.zero_testBit] at this
      rw [Efun_of_testBit p s hs, Efun_of_not_testBit q s hqs]
      omega
  · rw [combineStep_and p q h]
    constructor
    · intro s
      show p.2 + q.2 ≤ Efun p s + Efun q s
      have h1 := Efun_ge p s
      have h2 := Efun_ge q s
      omega
    · obtain ⟨s, hs⟩ := exists_testBit (p.1 &&& q.1) h
      simp only [Nat.testBit_and, Bool.and_eq_true] at hs
      refine ⟨s, ?_⟩
      show Efun p s + Efun q s = p.2 + q.2
      rw [Efun_of_testBit p s hs.1, Efun_of_testBit q s hs.2]

/-- The combined pair's own cost function in terms of the two inputs. -/
theorem Efun_combineStep (p q : Nat × Nat) (hp : p.1 ≠ 0) (hq : q.1 ≠ 0)
    (s : Nat) :
    Efun (combineStep p q) s =
      min (Efun p s + Efun q s) ((combineStep p q).2 + 1) := by
  have hmin := combineStep_isMinOf p q hp hq
  by_cases h : p.1 &&& q.1 = 0
  · rw [combineStep_or p q h] at *
    by_cases hs : (p.1 ||| q.1).testBit s
    · rw [Efun_of_testBit _ s hs]
      simp only [Nat.testBit_or, Bool.or_eq_true] at hs
      have hand : ¬(p.1.testBit s = true ∧ q.1.testBit s = true) := by
        rintro ⟨h1, h2⟩
        have : (p.1 &&& q.1).testBit s = true := by
          simp [Nat.testBit_and, h1, h2]
        rw [h] at this
        simp [Nat.zero_testBit] at this
      have hsum : Efun p s + Efun q s = p.2 + q.2 + 1 := by
        rcases hs with h1 | h1
        · have h2 : q.1.testBit s = false := by
            cases hv : q.1.testBit s
            · rfl
            · exact absurd ⟨h1, hv⟩ hand
          rw [Efun_of_testBit p s h1, Efun_of_not_testBit q s h2]
          omega
        · by_cases h2 : p.1.testBit s = true
          · exact absurd ⟨h2, h1⟩ hand
          · have h2f : p.1.testBit s = false := by
              cases hv : p.1.testBit s
              · rfl
              · exact absurd hv h2
            rw [Efun_of_not_testBit p s h2f, Efun_of_testBit q s h1]
            omega
      simp only [hsum]
      omega
    · have hsf : (p.1 ||| q.1).testBit s = false := by
        cases hv : (p.1 ||| q.1).testBit s
        · rfl
        · exact absurd hv hs
      rw [Efun_of_not_testBit _ s hsf]
      simp only [Nat.testBit_or, Bool.or_eq_false_iff] at hsf
      rw [Efun_of_not_testBit p s hsf.1, Efun_of_not_testBit q s hsf.2]
      simp only []
      omega
  · rw [combineStep_and p q h] at *
    by_cases hs : (p.1 &&& q.1).testBit s
    · rw [Efun_of_testBit _ s hs]
      simp only [Nat.testBit_and, Bool.and_eq_true] at hs
      rw [Efun_of_testBit p s hs.1, Efun_of_testBit q s hs.2]
      simp only []
      omega
    · have hsf : (p.1 &&& q.1).testBit s = false := by
        cases hv : (p.1 &&& q.1).testBit s
        · rfl
        · exact absurd hv hs
      rw [Efun_of_not_testBit _ s hsf]
      have hge : p.2 + q.2 + 1 ≤ Efun p s + Efun q s := by
        simp only [Nat.testBit_and, Bool.and_eq_false_iff] at hsf
        rcases hsf with h1 | h1
        · have := Efun_of_not_testBit p s h1
          have := Efun_ge q s
          omega
        · have := Efun_of_not_testBit q s h1
          have := Efun_ge p s
          omega
      simp only []
      omega

theorem isMinOf_unique (c d : Nat) (f : Nat → Nat)
    (hc : IsMinOf c f) (hd : IsMinOf d f) : c = d := by
  obtain ⟨hc1, s, hs⟩ := hc
  obtain ⟨hd1, t, ht⟩ := hd
  have := hc1 t
  have := hd1 s
  omega

theorem isMinOf_congr (c : Nat) (f g : Nat → Nat) (h : ∀ s, f s = g s)
    (hf : IsMinOf c f) : IsMinOf c g := by
  obtain ⟨h1, s, hs⟩ := hf
  exact ⟨fun t => h t ▸ h1 t, s, (h s) ▸ hs⟩

theorem isMinOf_equiMin (c : Nat) (f g : Nat → Nat) (he : EquiMin f g)
    (hf : IsMinOf c f) : IsMinOf c g := by
  obtain ⟨h1, s0, hs0⟩ := hf
  obtain ⟨hd1, hd2⟩ := he
  constructor
  · intro s
    obtain ⟨t, ht⟩ := hd2 s
    exact le_trans (h1 t) ht
  · obtain ⟨t, ht⟩ := hd1 s0
    rw [hs0] at ht
    refine ⟨t, ?_⟩
    have : c ≤ g t := by
      obtain ⟨u, hu⟩ := hd2 t
      exact le_trans (h1 u) hu
    omega

mutual

/-- Every leaf of the subtree carries a non-empty observed bitset (always
true of real parsimony leaf data: an observed state contributes its bit,
and gaps/unknowns contribute the full-alphabet bitset). -/
def leavesNonzero (ld : Int → Nat) : RTree → Bool
  | node i _ [] => ld i != 0
  | node _ _ (c :: cs) => leavesNonzero ld c && leavesNonzeroList ld cs

/-- Leaves of a forest carry non-empty bitsets. -/
def leavesNonzeroList (ld : Int → Nat) : List RTree → Bool
  | [] => true
  | t :: ts => leavesNonzero ld t && leavesNonzeroList ld ts

end

mutual

/-- Every node of the subtree is a leaf or has exactly two sons. -/
def binaryBelow : RTree → Bool
  | node _ _ s => (s.isEmpty || s.length == 2) && binaryBelowList s

/-- Every node of the forest is a leaf or has exactly two sons. -/
def binaryBelowList : List RTree → Bool
  | [] => true
  | t :: ts => binaryBelow t && binaryBelowList ts

end

theorem leavesNonzeroList_append (ld : Int → Nat) (a b : List RTree) :
    leavesNonzeroList ld (a ++ b) =
      (leavesNonzeroList ld a && leavesNonzeroList ld b) := by
  induction a with
  | nil => simp [leavesNonzeroList]
  | cons t ts ih => simp [leavesNonzeroList, ih, Bool.and_assoc]

theorem leavesNonzeroList_mem (ld : Int → Nat) (l : List RTree)
    (h : leavesNonzeroList ld l = true) :
    ∀ t ∈ l, leavesNonzero ld t = true := by
  induction l with
  | nil => intro t ht; simp at ht
  | cons x xs ih =>
      intro t ht
      rw [leavesNonzeroList, Bool.and_eq_true] at h
      rcases List.mem_cons.mp ht with rfl | ht2
      · exact h.1
      · exact ih h.2 t ht2

theorem leavesNonzero_sons (ld : Int → Nat) (i : Int) (d : Option Rat)
    (s : List RTree) (h : leavesNonzero ld (node i d s) = true) :
    leavesNonzeroList ld s = true := by
  cases s with
  | nil => rfl
  | cons c cs => exact h

theorem leavesNonzero_node_of_list (ld : Int → Nat) (i : Int) (d : Option Rat)
    (c : RTree) (cs : List RTree)
    (h : leavesNonzeroList ld (c :: cs) = true) :
    leavesNonzero ld (node i d (c :: cs)) = true := h

theorem binaryBelowList_append (a b : List RTree) :
    binaryBelowList (a ++ b) = (binaryBelowList a && binaryBelowList b) := by
  induction a with
  | nil => simp [binaryBelowList]
  | cons t ts ih => simp [binaryBelowList, ih, Bool.and_assoc]

theorem binaryBelowList_mem (l : List RTree)
    (h : binaryBelowList l = true) : ∀ t ∈ l, binaryBelow t = true := by
  induction l with
  | nil => intro t ht; simp at ht
  | cons x xs ih =>
      intro t ht
      rw [binaryBelowList, Bool.and_eq_true] at h
      rcases List.mem_cons.mp ht with rfl | ht2
      · exact h.1
      · exact ih h.2 t ht2

theorem binaryBelow_sons_length (t : RTree) (h : binaryBelow t = true) :
    t.sons = [] ∨ t.sons.length = 2 := by
  obtain ⟨i, d, s⟩ := t
  rw [binaryBelow, Bool.and_eq_true, Bool.or_eq_true] at h
  rcases h.1 with h1 | h1
  · exact Or.inl (List.isEmpty_iff.mp h1)
  · exact Or.inr (by simpa using h1)

theorem binaryBelow_list (t : RTree) (h : binaryBelow t = true) :
    binaryBelowList t.sons = true := by
  obtain ⟨i, d, s⟩ := t
  rw [binaryBelow, Bool.and_eq_true] at h
  exact h.2

theorem fitchPairList_eq_map (ld : Int → Nat) (l : List RTree) :
    fitchPairList ld l = l.map (fitchPair ld) := by
  induction l with
  | nil => rfl
  | cons t ts ih => rw [fitchPairList, ih, List.map_cons]

theorem fitchPair_node_two (ld : Int → Nat) (i : Int) (d : Option Rat)
    (a b : RTree) :
    fitchPair ld (node i d [a, b]) =
      combineStep (fitchPair ld a) (fitchPair ld b) := rfl

theorem fitchPair_fst_ne_zero (ld : Int → Nat) :
    ∀ t : RTree, leavesNonzero ld t = true → (fitchPair ld t).1 ≠ 0
  | node i d [], h => by
      rw [leavesNonzero] at h
      simpa [fitchPair] using h
  | node i d (c :: cs), h => by
      rw [leavesNonzero, Bool.and_eq_true] at h
      have hc := fitchPair_fst_ne_zero ld c h.1
      show (List.foldl combineStep (fitchPair ld c) (fitchPairList ld cs)).1 ≠ 0
      exact posFold_bitset_ne_zero _ _ hc

/-- The key exchange move: replacing a combined pair by its two inputs
under the minimum does not change it, as long as the remaining summand
varies by at most one between states. -/
theorem equiMin_expand (p q : Nat × Nat) (hp : p.1 ≠ 0) (hq : q.1 ≠ 0)
    (f : Nat → Nat) (hf : Lip1 f) :
    EquiMin (fun s => Efun (combineStep p q) s + f s)
      (fun s => Efun p s + Efun q s + f s) := by
  constructor
  · intro s
    rcases Nat.le_total (Efun p s + Efun q s) ((combineStep p q).2 + 1) with
      hle | hle
    · refine ⟨s, ?_⟩
      show Efun p s + Efun q s + f s ≤ Efun (combineStep p q) s + f s
      rw [Efun_combineStep p q hp hq s]
      omega
    · obtain ⟨_, t, ht⟩ := combineStep_isMinOf p q hp hq
      refine ⟨t, ?_⟩
      show Efun p t + Efun q t + f t ≤ Efun (combineStep p q) s + f s
      rw [Efun_combineStep p q hp hq s]
      have hft := hf t s
      simp only at ht
      omega
  · intro s
    refine ⟨s, ?_⟩
    show Efun (combineStep p q) s + f s ≤ Efun p s + Efun q s + f s
    rw [Efun_combineStep p q hp hq s]
    have := Nat.min_le_left (Efun p s + Efun q s) ((combineStep p q).2 + 1)
    omega

theorem equiMin_symm (f g : Nat → Nat) (h : EquiMin f g) : EquiMin g f :=
  ⟨h.2, h.1⟩

theorem foldPairs_fst_ne_zero (l : List (Nat × Nat)) (r : Nat × Nat)
    (h : foldPairs l = some r) (hl : ∀ p ∈ l, p.1 ≠ 0) : r.1 ≠ 0 := by
  cases l with
  | nil => simp [foldPairs] at h
  | cons p ps =>
      rw [foldPairs] at h
      injection h with h
      subst h
      exact posFold_bitset_ne_zero ps p (hl p (by simp))

theorem testNNIGo_leaf (ld : Int → Nat) (nodeId : Int) (i : Int)
    (d : Option Rat) (u : Option (Nat × Nat)) :
    testNNIGo ld nodeId (node i d []) u = none := by
  rw [testNNIGo]
  rfl

/-- Father-direction contribution plus son contributions at one state: the
cost sum that the total at a node minimizes over. -/
def sumU (u : Option (Nat × Nat)) (ps : List (Nat × Nat)) (s : Nat) : Nat :=
  (match u with | some p => Efun p s | none => 0) +
    (ps.map (fun p => Efun p s)).sum

/-- Totals of the three-input combine: the nested fold minimizes the sum
of the three cost functions. -/
theorem fold3_isMinOf (p q r : Nat × Nat) (hp : p.1 ≠ 0) (hq : q.1 ≠ 0)
    (hr : r.1 ≠ 0) :
    IsMinOf (combineStep (combineStep p q) r).2
      (fun s => Efun p s + Efun q s + Efun r s) := by
  have h1 := combineStep_isMinOf (combineStep p q) r
    (combineStep_fst_ne_zero p q hp) hr
  have h2 := equiMin_expand p q hp hq (Efun r) (lip1_Efun r)
  exact isMinOf_equiMin _ _ _ h2 h1

/-- Grandfather recombination, case with a father direction or an extra
root son `pu`: the hypothetical parent total minimizes the flattened sum. -/
theorem gf_core_extra (pu O U S : Nat × Nat) (hpu : pu.1 ≠ 0)
    (hO : O.1 ≠ 0) (hU : U.1 ≠ 0) (hS : S.1 ≠ 0) :
    IsMinOf (combineStep (combineStep O U) (combineStep pu S)).2
      (fun s => Efun pu s + Efun (combineStep O U) s + Efun S s) := by
  have hOU := combineStep_fst_ne_zero O U hO
  have hpuS := combineStep_fst_ne_zero pu S hpu
  have h1 := combineStep_isMinOf (combineStep O U) (combineStep pu S) hOU hpuS
  have h2 := equiMin_expand pu S hpu hS (Efun (combineStep O U))
    (lip1_Efun _)
  have h3 : IsMinOf (combineStep (combineStep O U) (combineStep pu S)).2
      (fun s => Efun (combineStep pu S) s + Efun (combineStep O U) s) := by
    refine isMinOf_congr _ _ _ (fun s => by omega) h1
  have h4 := isMinOf_equiMin _ _ _ h2 h3
  exact isMinOf_congr _ _ _ (fun s => by omega) h4

/-- Descent transfer, internal node: collapse the two sons of the mutated
descent child and expand the new father-direction pair. -/
theorem descent_core_internal (pu w a2 b2 : Nat × Nat) (hpu : pu.1 ≠ 0)
    (hw : w.1 ≠ 0) (ha : a2.1 ≠ 0) (hb : b2.1 ≠ 0) (c : Nat)
    (h : IsMinOf c
      (fun s => Efun (combineStep pu w) s + Efun a2 s + Efun b2 s)) :
    IsMinOf c
      (fun s => Efun pu s + Efun w s + Efun (combineStep a2 b2) s) := by
  have h1 : IsMinOf c
      (fun s => Efun a2 s + Efun b2 s + Efun (combineStep pu w) s) :=
    isMinOf_congr _ _ _ (fun s => by omega) h
  have h2 := equiMin_symm _ _ (equiMin_expand a2 b2 ha hb
    (Efun (combineStep pu w)) (lip1_Efun _))
  have h3 := isMinOf_equiMin _ _ _ h2 h1
  have h4 : IsMinOf c
      (fun s => Efun (combineStep pu w) s + Efun (combineStep a2 b2) s) :=
    isMinOf_congr _ _ _ (fun s => by omega) h3
  have h5 := equiMin_expand pu w hpu hw (Efun (combineStep a2 b2))
    (lip1_Efun _)
  exact isMinOf_equiMin _ _ _ h5 h4

/-- Descent transfer, two-son root: collapse the two sons of the mutated
descent child. -/
theorem descent_core_root2 (w a2 b2 : Nat × Nat)
    (hw : w.1 ≠ 0) (ha : a2.1 ≠ 0) (hb : b2.1 ≠ 0) (c : Nat)
    (h : IsMinOf c (fun s => Efun w s + Efun a2 s + Efun b2 s)) :
    IsMinOf c (fun s => Efun w s + Efun (combineStep a2 b2) s) := by
  have h1 : IsMinOf c (fun s => Efun a2 s + Efun b2 s + Efun w s) :=
    isMinOf_congr _ _ _ (fun s => by omega) h
  have h2 := equiMin_symm _ _ (equiMin_expand a2 b2 ha hb (Efun w)
    (lip1_Efun _))
  have h3 := isMinOf_equiMin _ _ _ h2 h1
  exact isMinOf_congr _ _ _ (fun s => by omega) h3

theorem equiMin_of_eq (f g : Nat → Nat) (h : ∀ s, f s = g s) : EquiMin f g :=
  ⟨fun s => ⟨s, le_of_eq (h s).symm⟩, fun s => ⟨s, le_of_eq (h s)⟩⟩

theorem equiMin_congr_right (f g g2 : Nat → Nat) (h : EquiMin f g)
    (he : ∀ s, g s = g2 s) : EquiMin f g2 := by
  obtain ⟨h1, h2⟩ := h
  constructor
  · intro s
    obtain ⟨t, ht⟩ := h1 s
    exact ⟨t, by rw [← he t]; exact ht⟩
  · intro s
    obtain ⟨t, ht⟩ := h2 s
    exact ⟨t, by rw [← he s]; exact ht⟩

/-- Expanding a fold of at most two cached pairs under the minimum, in the
presence of a 1-Lipschitz remainder. -/
theorem foldPairs_expand (l : List (Nat × Nat)) (r : Nat × Nat)
    (f : Nat → Nat) (hlen : l.length ≤ 2) (hfold : foldPairs l = some r)
    (hnz : ∀ p ∈ l, p.1 ≠ 0) (hf : Lip1 f) :
    EquiMin (fun s => Efun r s + f s)
      (fun s => (l.map (fun p => Efun p s)).sum + f s) := by
  match l, hlen with
  | [], _ => simp [foldPairs] at hfold
  | [p], _ =>
      rw [show foldPairs [p] = some p from rfl] at hfold
      injection hfold with hfold
      subst hfold
      exact equiMin_of_eq _ _ (fun s => by simp)
  | [p, q], _ =>
      rw [show foldPairs [p, q] = some (combineStep p q) from rfl] at hfold
      injection hfold with hfold
      subst hfold
      have h := equiMin_expand p q (hnz p (by simp)) (hnz q (by simp)) f hf
      exact equiMin_congr_right _ _ _ h (fun s => by simp)

theorem leavesNonzero_node_ne_nil (ld : Int → Nat) (i : Int)
    (d : Option Rat) (s : List RTree) (hne : s ≠ []) :
    leavesNonzero ld (node i d s) = leavesNonzeroList ld s := by
  cases s with
  | nil => exact absurd rfl hne
  | cons c cs => rfl

theorem sumU_toList (u : Option (Nat × Nat)) (ps : List (Nat × Nat))
    (s : Nat) :
    sumU u ps s =
      (u.toList.map (fun p => Efun p s)).sum +
        (ps.map (fun p => Efun p s)).sum := by
  cases u <;> simp [sumU]

/-- Grandfather-level finisher: with the hypothetical grandfather pair
recombined from the father direction, the untouched other sons and the
moved son, and given the sum identity describing the swapped son list, the
proposed parent total minimizes the new cost sum. -/
theorem gf_finish (ld : Int → Nat) (u : Option (Nat × Nat))
    (others : List RTree) (son uncle O : RTree) (PNi : Int) (PNd : Option Rat)
    (gfPair : Nat × Nat) (X2sons : List RTree)
    (hO : (fitchPair ld O).1 ≠ 0) (hUn : (fitchPair ld uncle).1 ≠ 0)
    (hS : (fitchPair ld son).1 ≠ 0)
    (hoth : ∀ p ∈ fitchPairList ld others, p.1 ≠ 0)
    (hu : ∀ p, u = some p → p.1 ≠ 0)
    (hlen : (u.toList ++ fitchPairList ld others).length ≤ 1)
    (hgfp : foldPairs (u.toList ++ fitchPairList ld others
        ++ [fitchPair ld son]) = some gfPair)
    (hsum : ∀ s, ((fitchPairList ld X2sons).map (fun p => Efun p s)).sum =
      Efun (fitchPair ld (node PNi PNd [O, uncle])) s +
        ((fitchPairList ld others).map (fun p => Efun p s)).sum +
        Efun (fitchPair ld son) s) :
    IsMinOf
      (combineStep (combineStep (fitchPair ld O) (fitchPair ld uncle))
        gfPair).2
      (sumU u (fitchPairList ld X2sons)) := by
  have hnzlist : ∀ p ∈ u.toList ++ fitchPairList ld others
      ++ [fitchPair ld son], p.1 ≠ 0 := by
    intro p hp
    rcases List.mem_append.mp hp with hp1 | hp2
    · rcases List.mem_append.mp hp1 with hpa | hpb
      · cases u with
        | none => simp at hpa
        | some pu =>
            simp only [Option.toList_some, List.mem_singleton] at hpa
            subst hpa
            exact hu p rfl
      · exact hoth p hpb
    · simp only [List.mem_singleton] at hp2
      subst hp2
      exact hS
  have hgfnz : gfPair.1 ≠ 0 := foldPairs_fst_ne_zero _ _ hgfp hnzlist
  have h1 := fold3_isMinOf (fitchPair ld O) (fitchPair ld uncle) gfPair
    hO hUn hgfnz
  have h2 := isMinOf_equiMin _ _ _
    (equiMin_symm _ _ (equiMin_expand (fitchPair ld O) (fitchPair ld uncle)
      hO hUn (Efun gfPair) (lip1_Efun _))) h1
  have h2b : IsMinOf
      (combineStep (combineStep (fitchPair ld O) (fitchPair ld uncle))
        gfPair).2
      (fun s => Efun gfPair s +
        Efun (combineStep (fitchPair ld O) (fitchPair ld uncle)) s) :=
    isMinOf_congr _ _ _ (fun s => by omega) h2
  have hlen2 : (u.toList ++ fitchPairList ld others
      ++ [fitchPair ld son]).length ≤ 2 := by
    simp only [List.length_append, List.length_singleton] at hlen ⊢
    omega
  have h3 := foldPairs_expand _ gfPair
    (Efun (combineStep (fitchPair ld O) (fitchPair ld uncle)))
    hlen2 hgfp hnzlist (lip1_Efun _)
  have h4 := isMinOf_equiMin _ _ _ h3 h2b
  refine isMinOf_congr _ _ _ ?_ h4
  intro s
  rw [sumU_toList, hsum s, fitchPair_node_two]
  simp only [List.map_append, List.sum_append, List.map_cons, List.sum_cons,
    List.map_nil, List.sum_nil]
  omega

/-- Witness for `unroot_spec`: the three cases at concrete trees.  The
unrooted (three-son) star throws; the two-leaf cherry fails unchanged; a
rooted tree with an internal son unroots into a one-node-smaller tree whose
appended son carries the merged length 1 + 2. -/
theorem unroot_spec_witness :
    unroot (node 0 none [node 1 none [], node 2 none [], node 3 none []]) =
        .threw ∧
      unroot (node 0 none [node 1 (some 1) [], node 2 (some 2) []]) =
        .failed (node 0 none [node 1 (some 1) [], node 2 (some 2) []]) ∧
      ∃ r, unroot (node 0 none
          [node 1 (some 1) [node 3 none [], node 4 none []],
           node 2 (some 2) []]) = .ok r ∧
        r.size + 1 = (node 0 none
          [node 1 (some 1) [node 3 none [], node 4 none []],
           node 2 (some 2) []] : RTree).size ∧
        r.rootDist = none ∧
        (∀ d1 d2, (some (1 : Rat)) = some d1 → (some (2 : Rat)) = some d2 →
          ∃ s rest, r.sons = rest ++ [s] ∧ s.rootDist = some (d1 + d2)) := by
  refine ⟨?_, ?_, ?_⟩
  · exact (unroot_spec _).1 (by decide)
  · exact (unroot_spec _).2.1 _ _ rfl rfl rfl
  · obtain ⟨r, h1, h2, h3, h4⟩ := (unroot_spec (node 0 none
      [node 1 (some 1) [node 3 none [], node 4 none []],
       node 2 (some 2) []])).2.2
        (node 1 (some 1) [node 3 none [], node 4 none []])
        (node 2 (some 2) []) rfl (by intro h; exact absurd h.1 (by decide))
    exact ⟨r, h1, h2, h3, fun d1 d2 hd1 hd2 => h4 d1 d2 hd1 hd2⟩

theorem pair_split_one {A : Type} (l1 l2 : List A) (h : l1.length + l2.length = 1) :
    (l1 = [] ∧ ∃ b, l2 = [b]) ∨ (∃ a, l1 = [a]) ∧ l2 = [] := by
  cases l1 with
  | nil =>
    cases l2 with
    | nil => simp only [List.length_nil, List.length_cons] at h; omega
    | cons b t =>
      cases t with
      | nil => exact Or.inl ⟨rfl, b, rfl⟩
      | cons c u => simp only [List.length_nil, List.length_cons] at h; omega
  | cons a t =>
    cases t with
    | nil =>
      cases l2 with
      | nil => exact Or.inr ⟨⟨a, rfl⟩, rfl⟩
      | cons b u => simp only [List.length_nil, List.length_cons] at h; omega
    | cons b u => simp only [List.length_nil, List.length_cons] at h; omega

theorem pair_split_two {A : Type} (l1 l2 : List A) (h : l1.length + l2.length = 2) :
    (l1 = [] ∧ ∃ b c, l2 = [b, c]) ∨
    ((∃ a, l1 = [a]) ∧ ∃ b, l2 = [b]) ∨
    ((∃ a b, l1 = [a, b]) ∧ l2 = []) := by
  cases l1 with
  | nil =>
    cases l2 with
    | nil => simp only [List.length_nil, List.length_cons] at h; omega
    | cons b t =>
      cases t with
      | nil => simp only [List.length_nil, List.length_cons] at h; omega
      | cons c u =>
        cases u with
        | nil => exact Or.inl ⟨rfl, b, c, rfl⟩
        | cons x v => simp only [List.length_nil, List.length_cons] at h; omega
  | cons a t =>
    cases t with
    | nil =>
      cases l2 with
      | nil => simp only [List.length_nil, List.length_cons] at h; omega
      | cons b u =>
        cases u with
        | nil => exact Or.inr (Or.inl ⟨⟨a, rfl⟩, b, rfl⟩)
        | cons x v => simp only [List.length_nil, List.length_cons] at h; omega
    | cons b u =>
      cases u with
      | nil =>
        cases l2 with
        | nil => exact Or.inr (Or.inr ⟨⟨a, b, rfl⟩, rfl⟩)
        | cons x v => simp only [List.length_nil, List.length_cons] at h; omega
      | cons x v => simp only [List.length_nil, List.length_cons] at h; omega

theorem nniGo_spec (ld : Int → Nat) (nodeId : Int) :
    ∀ (X : RTree) (u : Option (Nat × Nat)) (prop : Nat) (X2 : RTree),
      leavesNonzero ld X = true →
      binaryBelowList X.sons = true →
      (X.sons.length = 2 ∨ (u = none ∧ X.sons.length = 3)) →
      (∀ p, u = some p → p.1 ≠ 0) →
      testNNIGo ld nodeId X u = some prop →
      doNNIGo nodeId X = some X2 →
      IsMinOf prop (sumU u (fitchPairList ld X2.sons)) ∧
        X2.sons.length = X.sons.length ∧ leavesNonzero ld X2 = true
  | node i d s, u, prop, X2 => by
    intro hLeaves hBin hArity hU hT hD
    rw [testNNIGo] at hT
    rw [doNNIGo] at hD
    have hLl : leavesNonzeroList ld s = true := leavesNonzero_sons ld i d s hLeaves
    simp only [sons_node] at hBin hArity ⊢
    cases hgf : splitFirstP (fun p => p.sons.any (fun c => c.rootId == nodeId)) s with
    | none =>
        rw [hgf] at hT hD
        simp only [] at hT hD
        cases hdesc : splitFirstP (fun c => containsId c nodeId) s with
        | none =>
            rw [hdesc] at hT
            simp at hT
        | some tr =>
            obtain ⟨pre, c, post⟩ := tr
            rw [hdesc] at hT hD
            simp only [] at hT hD
            obtain ⟨hs, hpc, hprefalse⟩ := splitFirstP_eq _ s pre post c hdesc
            cases hfold : foldPairs (u.toList ++ fitchPairList ld (pre ++ post)) with
            | none => rw [hfold] at hT; simp at hT
            | some up2 =>
                rw [hfold] at hT
                simp only [] at hT
                cases hdo : doNNIGo nodeId c with
                | none => rw [hdo] at hD; simp at hD
                | some c2 =>
                    rw [hdo] at hD
                    simp only [Option.some_inj] at hD
                    subst hD
                    have hcmem : c ∈ s := by rw [hs]; simp
                    have hcleaves : leavesNonzero ld c = true :=
                      leavesNonzeroList_mem ld s hLl c hcmem
                    have hcbin : binaryBelow c = true := binaryBelowList_mem s hBin c hcmem
                    have hcsons : c.sons.length = 2 := by
                      rcases binaryBelow_sons_length c hcbin with h0 | h2
                      · exfalso
                        obtain ⟨ci, cd, cs⟩ := c
                        simp only [sons_node] at h0
                        subst h0
                        rw [testNNIGo_leaf] at hT
                        simp at hT
                      · exact h2
                    have hall : ∀ p ∈ u.toList ++ fitchPairList ld (pre ++ post), p.1 ≠ 0 := by
                      intro p hp
                      rcases List.mem_append.mp hp with hp1 | hp2
                      · cases u with
                        | none => simp at hp1
                        | some pu =>
                            simp only [Option.toList_some, List.mem_singleton] at hp1
                            subst hp1
                            exact hU p rfl
                      · rw [fitchPairList_eq_map] at hp2
                        obtain ⟨y, hy, rfl⟩ := List.mem_map.mp hp2
                        have hymem : y ∈ s := by
                          rw [hs]
                          rcases List.mem_append.mp hy with h | h
                          · exact List.mem_append.mpr (Or.inl h)
                          · exact List.mem_append.mpr (Or.inr (by simp [h]))
                        exact fitchPair_fst_ne_zero ld y
                          (leavesNonzeroList_mem ld s hLl y hymem)
                    have hup2 : up2.1 ≠ 0 := foldPairs_fst_ne_zero _ _ hfold hall
                    obtain ⟨hIH1, hIH2, hIH3⟩ := nniGo_spec ld nodeId c (some up2) prop c2
                      hcleaves (binaryBelow_list c hcbin) (Or.inl hcsons)
                      (by intro p hp; injection hp with hp; subst hp; exact hup2)
                      hT hdo
                    rw [hcsons] at hIH2
                    obtain ⟨i2, d2, s2⟩ := c2
                    simp only [sons_node] at hIH2 hIH1
                    match s2, hIH2, hIH1, hIH3 with
                    | [a2, b2], _, hIH1, hIH3 => ?_
                    clear hIH2
                    -- nonzero pairs of the mutated child's sons
                    have hlv : leavesNonzeroList ld [a2, b2] = true := by
                      exact leavesNonzero_sons ld i2 d2 [a2, b2] hIH3
                    have ha2 : (fitchPair ld a2).1 ≠ 0 :=
                      fitchPair_fst_ne_zero ld a2 (leavesNonzeroList_mem ld _ hlv a2 (by simp))
                    have hb2 : (fitchPair ld b2).1 ≠ 0 :=
                      fitchPair_fst_ne_zero ld b2 (leavesNonzeroList_mem ld _ hlv b2 (by simp))
                    -- the transfer chain
                    have step1 : IsMinOf prop (fun st =>
                        Efun (fitchPair ld a2) st + Efun (fitchPair ld b2) st + Efun up2 st) := by
                      refine isMinOf_congr _ _ _ ?_ hIH1
                      intro st
                      simp [sumU, fitchPairList]
                      omega
                    have step2 := isMinOf_equiMin _ _ _
                      (equiMin_symm _ _ (equiMin_expand (fitchPair ld a2) (fitchPair ld b2)
                        ha2 hb2 (Efun up2) (lip1_Efun _))) step1
                    have step2b : IsMinOf prop (fun st =>
                        Efun up2 st +
                          Efun (combineStep (fitchPair ld a2) (fitchPair ld b2)) st) :=
                      isMinOf_congr _ _ _ (fun st => by omega) step2
                    have hlenul : (u.toList ++ fitchPairList ld (pre ++ post)).length ≤ 2 := by
                      have hslen : s.length = pre.length + post.length + 1 := by
                        rw [hs]
                        simp only [List.length_append, List.length_cons]
                        omega
                      rcases hArity with h2 | ⟨hun, h3⟩
                      · cases u <;>
                          simp only [List.length_append, Option.toList_some, Option.toList_none,
                            List.length_singleton, List.length_nil, fitchPairList_eq_map,
                            List.length_map] <;> omega
                      · subst hun
                        simp only [List.length_append, Option.toList_none,
                          List.length_nil, fitchPairList_eq_map, List.length_map]
                        omega
                    have step3 := isMinOf_equiMin _ _ _
                      (foldPairs_expand _ up2
                        (Efun (combineStep (fitchPair ld a2) (fitchPair ld b2)))
                        hlenul hfold hall (lip1_Efun _)) step2b
                    refine ⟨?_, ?_, ?_⟩
                    · simp only [sons_node]
                      refine isMinOf_congr _ _ _ ?_ step3
                      intro st
                      rw [sumU_toList]
                      have hx2 : fitchPairList ld (pre ++ node i2 d2 [a2, b2] :: post) =
                          (pre.map (fitchPair ld)) ++ fitchPair ld (node i2 d2 [a2, b2]) ::
                            (post.map (fitchPair ld)) := by
                        rw [fitchPairList_eq_map]; simp
                      rw [hx2, fitchPair_node_two]
                      simp only [fitchPairList_eq_map, List.map_append, List.sum_append,
                        List.map_cons, List.sum_cons]
                      omega
                    · simp [hs]
                    · rw [leavesNonzero_node_ne_nil ld i d _ (by simp)]
                      have hl2 : leavesNonzeroList ld (pre ++ c :: post) = true := by
                        rw [← hs]; exact hLl
                      rw [leavesNonzeroList_append] at hl2 ⊢
                      simp only [Bool.and_eq_true] at hl2 ⊢
                      refine ⟨hl2.1, ?_⟩
                      have := hl2.2
                      rw [leavesNonzeroList] at this ⊢
                      simp only [Bool.and_eq_true] at this ⊢
                      exact ⟨hIH3, this.2⟩
    | some tr =>
        obtain ⟨pre, parent, post⟩ := tr
        rw [hgf] at hT hD
        simp only [] at hT hD
        obtain ⟨hs, hpp, hprefalse⟩ := splitFirstP_eq _ s pre post parent hgf
        have hpmem : parent ∈ s := by rw [hs]; simp
        have hpleaves : leavesNonzero ld parent = true :=
          leavesNonzeroList_mem ld s hLl parent hpmem
        have hpbin : binaryBelow parent = true := binaryBelowList_mem s hBin parent hpmem
        cases huncle : s.get? (testNNIUncleIndex pre.length) with
        | none =>
            rw [huncle] at hT
            simp at hT
        | some uncle =>
            rw [huncle] at hT
            have huncle2 : s.get? (doNNIUncleIndex pre.length) = some uncle := huncle
            rw [huncle2] at hD
            simp only [] at hT hD
            cases hsplit2 : splitFirstP (fun c => c.rootId == nodeId) parent.sons with
            | none =>
                rw [hsplit2] at hT
                simp at hT
            | some tr2 =>
                obtain ⟨preS, son, postS⟩ := tr2
                rw [hsplit2] at hT hD
                simp only [] at hT hD
                obtain ⟨hps, hsonid, hpreSf⟩ := splitFirstP_eq _ parent.sons preS postS son hsplit2
                have hplen : parent.sons.length = 2 := by
                  rcases binaryBelow_sons_length parent hpbin with h0 | h2
                  · rw [hps] at h0; simp at h0
                  · exact h2
                have hOex : ∃ O, preS ++ postS = [O] := by
                  rw [hps] at hplen
                  simp only [List.length_append, List.length_cons] at hplen
                  have h1 : preS.length + postS.length = 1 := by omega
                  rcases pair_split_one preS postS h1 with ⟨hp, b, hq⟩ | ⟨⟨a, hp⟩, hq⟩
                  · exact ⟨b, by simp [hp, hq]⟩
                  · exact ⟨a, by simp [hp, hq]⟩
                obtain ⟨O, hOeq⟩ := hOex
                rw [hOeq] at hT hD
                have hOmem : O ∈ parent.sons := by
                  rw [hps]
                  have hm : O ∈ preS ++ postS := by rw [hOeq]; simp
                  rcases List.mem_append.mp hm with h | h
                  · exact List.mem_append.mpr (Or.inl h)
                  · exact List.mem_append.mpr (Or.inr (by simp [h]))
                have hsonmem : son ∈ parent.sons := by rw [hps]; simp
                have hunclemem : uncle ∈ s := List.get?_mem huncle
                have hpl : leavesNonzeroList ld parent.sons = true := by
                  obtain ⟨pi, pd, psons⟩ := parent
                  exact leavesNonzero_sons ld pi pd psons hpleaves
                have hOleaves : leavesNonzero ld O = true :=
                  leavesNonzeroList_mem ld _ hpl O hOmem
                have hsonleaves : leavesNonzero ld son = true :=
                  leavesNonzeroList_mem ld _ hpl son hsonmem
                have huleaves : leavesNonzero ld uncle = true :=
                  leavesNonzeroList_mem ld s hLl uncle hunclemem
                have hfO : (fitchPair ld O).1 ≠ 0 := fitchPair_fst_ne_zero ld O hOleaves
                have hfson : (fitchPair ld son).1 ≠ 0 := fitchPair_fst_ne_zero ld son hsonleaves
                have hfuncle : (fitchPair ld uncle).1 ≠ 0 := fitchPair_fst_ne_zero ld uncle huleaves
                -- shape split on the grandfather's son list
                have hslen : s.length = pre.length + post.length + 1 := by
                  rw [hs]
                  simp only [List.length_append, List.length_cons]
                  omega
                have hfin : ∀ (others X2sons : List RTree) (gfPair : Nat × Nat),
                    (∀ y ∈ others, y ∈ s) →
                    (u.toList ++ fitchPairList ld others).length ≤ 1 →
                    foldPairs (u.toList ++ fitchPairList ld others
                      ++ [fitchPair ld son]) = some gfPair →
                    (∀ st, ((fitchPairList ld X2sons).map (fun p => Efun p st)).sum =
                      Efun (fitchPair ld
                        (node parent.rootId parent.rootDist [O, uncle])) st +
                        ((fitchPairList ld others).map (fun p => Efun p st)).sum +
                        Efun (fitchPair ld son) st) →
                    IsMinOf (combineStep
                        (combineStep (fitchPair ld O) (fitchPair ld uncle)) gfPair).2
                      (sumU u (fitchPairList ld X2sons)) := by
                  intro others X2sons gfPair hothmem hlen1 hgfp hsum
                  refine gf_finish ld u others son uncle O parent.rootId parent.rootDist
                    gfPair X2sons hfO hfuncle hfson ?_ hU hlen1 hgfp hsum
                  intro p hp
                  rw [fitchPairList_eq_map] at hp
                  obtain ⟨y, hy, rfl⟩ := List.mem_map.mp hp
                  exact fitchPair_fst_ne_zero ld y
                    (leavesNonzeroList_mem ld s hLl y (hothmem y hy))
                have hsonsplit : leavesNonzeroList ld (O :: son :: uncle :: []) = true := by
                  simp [leavesNonzeroList, hOleaves, hsonleaves, huleaves]
                rcases hArity with hlen2 | ⟨hun, hlen3⟩
                · -- grandfather with two sons
                  have hpp1 : pre.length + post.length = 1 := by omega
                  rcases pair_split_one pre post hpp1 with
                    ⟨hpre0, b, hpost0⟩ | ⟨⟨a, hpre0⟩, hpost0⟩
                  · subst hpre0; subst hpost0
                    -- s = [parent, b], parent at 0, uncle at 1
                    have hs2 : s = [parent, b] := by simpa using hs
                    subst hs2
                    have hub : uncle = b := by
                      rw [show testNNIUncleIndex (List.length ([] : List RTree)) = 1 from rfl]
                        at huncle
                      simp [List.get?] at huncle
                      exact huncle.symm
                    subst hub
                    rw [show eraseTwo [parent, uncle] (List.length ([] : List RTree))
                        (testNNIUncleIndex (List.length ([] : List RTree))) = [] from rfl] at hT
                    rw [show ((([parent, uncle].set (List.length ([] : List RTree))
                        (node parent.rootId parent.rootDist ([O] ++ [uncle]))).eraseIdx
                        (doNNIUncleIndex (List.length ([] : List RTree)))) ++ [son]) =
                      [node parent.rootId parent.rootDist [O, uncle], son] from rfl] at hD
                    simp only [Option.some_inj] at hD
                    subst hD
                    cases hgfp : foldPairs (u.toList ++ fitchPairList ld []
                        ++ [fitchPair ld son]) with
                    | none => rw [hgfp] at hT; simp at hT
                    | some gfPair =>
                        rw [hgfp] at hT
                        simp only [] at hT
                        rw [show foldPairs (fitchPairList ld [O] ++ [fitchPair ld uncle]
                            ++ [gfPair]) = some (combineStep (combineStep (fitchPair ld O)
                            (fitchPair ld uncle)) gfPair) from rfl] at hT
                        simp only [Option.some_inj] at hT
                        subst hT
                        refine ⟨?_, by simp, ?_⟩
                        · simp only [sons_node]
                          refine hfin [] _ gfPair (by simp) ?_ hgfp ?_
                          · cases u <;> simp [fitchPairList]
                          · intro st
                            simp only [fitchPairList, List.map_cons, List.map_nil,
                              List.sum_cons, List.sum_nil]
                            omega
                        · rw [leavesNonzero_node_ne_nil ld i d _ (by simp)]
                          simp only [leavesNonzeroList, Bool.and_eq_true]
                          refine ⟨?_, hsonleaves, trivial⟩
                          rw [leavesNonzero_node_ne_nil ld _ _ _ (by simp)]
                          simp [leavesNonzeroList, hOleaves, huleaves]
                  · subst hpre0; subst hpost0
                    have hs2 : s = [a, parent] := by simpa using hs
                    subst hs2
                    have hub : uncle = a := by
                      rw [show testNNIUncleIndex (List.length [a]) = 0 from rfl] at huncle
                      simp [List.get?] at huncle
                      exact huncle.symm
                    subst hub
                    rw [show eraseTwo [uncle, parent] (List.length [uncle])
                        (testNNIUncleIndex (List.length [uncle])) = [] from rfl] at hT
                    rw [show ((([uncle, parent].set (List.length [uncle])
                        (node parent.rootId parent.rootDist ([O] ++ [uncle]))).eraseIdx
                        (doNNIUncleIndex (List.length [uncle]))) ++ [son]) =
                      [node parent.rootId parent.rootDist [O, uncle], son] from rfl] at hD
                    simp only [Option.some_inj] at hD
                    subst hD
                    cases hgfp : foldPairs (u.toList ++ fitchPairList ld []
                        ++ [fitchPair ld son]) with
                    | none => rw [hgfp] at hT; simp at hT
                    | some gfPair =>
                        rw [hgfp] at hT
                        simp only [] at hT
                        rw [show foldPairs (fitchPairList ld [O] ++ [fitchPair ld uncle]
                            ++ [gfPair]) = some (combineStep (combineStep (fitchPair ld O)
                            (fitchPair ld uncle)) gfPair) from rfl] at hT
                        simp only [Option.some_inj] at hT
                        subst hT
                        refine ⟨?_, by simp, ?_⟩
                        · simp only [sons_node]
                          refine hfin [] _ gfPair (by simp) ?_ hgfp ?_
                          · cases u <;> simp [fitchPairList]
                          · intro st
                            simp only [fitchPairList, List.map_cons, List.map_nil,
                              List.sum_cons, List.sum_nil]
                            omega
                        · rw [leavesNonzero_node_ne_nil ld i d _ (by simp)]
                          simp only [leavesNonzeroList, Bool.and_eq_true]
                          refine ⟨?_, hsonleaves, trivial⟩
                          rw [leavesNonzero_node_ne_nil ld _ _ _ (by simp)]
                          simp [leavesNonzeroList, hOleaves, huleaves]
                · -- grandfather is the three-son root
                  subst hun
                  have hpp1 : pre.length + post.length = 2 := by omega
                  rcases pair_split_two pre post hpp1 with
                    ⟨hpre0, b, c, hpost0⟩ | ⟨⟨a, hpre0⟩, b, hpost0⟩ | ⟨⟨a, b, hpre0⟩, hpost0⟩
                  · subst hpre0; subst hpost0
                    have hs2 : s = [parent, b, c] := by simpa using hs
                    subst hs2
                    have hub : uncle = b := by
                      rw [show testNNIUncleIndex (List.length ([] : List RTree)) = 1 from rfl]
                        at huncle
                      simp [List.get?] at huncle
                      exact huncle.symm
                    subst hub
                    have hcmem2 : c ∈ [parent, uncle, c] := by simp
                    rw [show eraseTwo [parent, uncle, c] (List.length ([] : List RTree))
                        (testNNIUncleIndex (List.length ([] : List RTree))) = [c] from rfl] at hT
                    rw [show ((([parent, uncle, c].set (List.length ([] : List RTree))
                        (node parent.rootId parent.rootDist ([O] ++ [uncle]))).eraseIdx
                        (doNNIUncleIndex (List.length ([] : List RTree)))) ++ [son]) =
                      [node parent.rootId parent.rootDist [O, uncle], c, son] from rfl] at hD
                    simp only [Option.some_inj] at hD
                    subst hD
                    cases hgfp : foldPairs (none.toList ++ fitchPairList ld [c]
                        ++ [fitchPair ld son]) with
                    | none => rw [hgfp] at hT; simp at hT
                    | some gfPair =>
                        rw [hgfp] at hT
                        simp only [] at hT
                        rw [show foldPairs (fitchPairList ld [O] ++ [fitchPair ld uncle]
                            ++ [gfPair]) = some (combineStep (combineStep (fitchPair ld O)
                            (fitchPair ld uncle)) gfPair) from rfl] at hT
                        simp only [Option.some_inj] at hT
                        subst hT
                        refine ⟨?_, by simp, ?_⟩
                        · simp only [sons_node]
                          refine hfin [c] _ gfPair (by simp) (by simp [fitchPairList]) hgfp ?_
                          intro st
                          simp only [fitchPairList, List.map_cons, List.map_nil,
                            List.sum_cons, List.sum_nil]
                          omega
                        · rw [leavesNonzero_node_ne_nil ld i d _ (by simp)]
                          simp only [leavesNonzeroList, Bool.and_eq_true]
                          have hcl : leavesNonzero ld c = true :=
                            leavesNonzeroList_mem ld _ hLl c hcmem2
                          refine ⟨?_, hcl, hsonleaves, trivial⟩
                          rw [leavesNonzero_node_ne_nil ld _ _ _ (by simp)]
                          simp [leavesNonzeroList, hOleaves, huleaves]
                  · subst hpre0; subst hpost0
                    have hs2 : s = [a, parent, b] := by simpa using hs
                    subst hs2
                    have hub : uncle = a := by
                      rw [show testNNIUncleIndex (List.length [a]) = 0 from rfl] at huncle
                      simp [List.get?] at huncle
                      exact huncle.symm
                    subst hub
                    have hbmem2 : b ∈ [uncle, parent, b] := by simp
                    rw [show eraseTwo [uncle, parent, b] (List.length [uncle])
                        (testNNIUncleIndex (List.length [uncle])) = [b] from rfl] at hT
                    rw [show ((([uncle, parent, b].set (List.length [uncle])
                        (node parent.rootId parent.rootDist ([O] ++ [uncle]))).eraseIdx
                        (doNNIUncleIndex (List.length [uncle]))) ++ [son]) =
                      [node parent.rootId parent.rootDist [O, uncle], b, son] from rfl] at hD
                    simp only [Option.some_inj] at hD
                    subst hD
                    cases hgfp : foldPairs (none.toList ++ fitchPairList ld [b]
                        ++ [fitchPair ld son]) with
                    | none => rw [hgfp] at hT; simp at hT
                    | some gfPair =>
                        rw [hgfp] at hT
                        simp only [] at hT
                        rw [show foldPairs (fitchPairList ld [O] ++ [fitchPair ld uncle]
                            ++ [gfPair]) = some (combineStep (combineStep (fitchPair ld O)
                            (fitchPair ld uncle)) gfPair) from rfl] at hT
                        simp only [Option.some_inj] at hT
                        subst hT
                        refine ⟨?_, by simp, ?_⟩
                        · simp only [sons_node]
                          refine hfin [b] _ gfPair (by simp) (by simp [fitchPairList]) hgfp ?_
                          intro st
                          simp only [fitchPairList, List.map_cons, List.map_nil,
                            List.sum_cons, List.sum_nil]
                          omega
                        · rw [leavesNonzero_node_ne_nil ld i d _ (by simp)]
                          simp only [leavesNonzeroList, Bool.and_eq_true]
                          have hbl : leavesNonzero ld b = true :=
                            leavesNonzeroList_mem ld _ hLl b hbmem2
                          refine ⟨?_, hbl, hsonleaves, trivial⟩
                          rw [leavesNonzero_node_ne_nil ld _ _ _ (by simp)]
                          simp [leavesNonzeroList, hOleaves, huleaves]
                  · subst hpre0; subst hpost0
                    have hs2 : s = [a, b, parent] := by simpa using hs
                    subst hs2
                    have hub : uncle = b := by
                      rw [show testNNIUncleIndex (List.length [a, b]) = 1 from rfl] at huncle
                      simp [List.get?] at huncle
                      exact huncle.symm
                    subst hub
                    have hamem2 : a ∈ [a, uncle, parent] := by simp
                    rw [show eraseTwo [a, uncle, parent] (List.length [a, uncle])
                        (testNNIUncleIndex (List.length [a, uncle])) = [a] from rfl] at hT
                    rw [show ((([a, uncle, parent].set (List.length [a, uncle])
                        (node parent.rootId parent.rootDist ([O] ++ [uncle]))).eraseIdx
                        (doNNIUncleIndex (List.length [a, uncle]))) ++ [son]) =
                      [a, node parent.rootId parent.rootDist [O, uncle], son] from rfl] at hD
                    simp only [Option.some_inj] at hD
                    subst hD
                    cases hgfp : foldPairs (none.toList ++ fitchPairList ld [a]
                        ++ [fitchPair ld son]) with
                    | none => rw [hgfp] at hT; simp at hT
                    | some gfPair =>
                        rw [hgfp] at hT
                        simp only [] at hT
                        rw [show foldPairs (fitchPairList ld [O] ++ [fitchPair ld uncle]
                            ++ [gfPair]) = some (combineStep (combineStep (fitchPair ld O)
                            (fitchPair ld uncle)) gfPair) from rfl] at hT
                        simp only [Option.some_inj] at hT
                        subst hT
                        refine ⟨?_, by simp, ?_⟩
                        · simp only [sons_node]
                          refine hfin [a] _ gfPair (by simp) (by simp [fitchPairList]) hgfp ?_
                          intro st
                          simp only [fitchPairList, List.map_cons, List.map_nil,
                            List.sum_cons, List.sum_nil]
                          omega
                        · rw [leavesNonzero_node_ne_nil ld i d _ (by simp)]
                          simp only [leavesNonzeroList, Bool.and_eq_true]
                          have hal : leavesNonzero ld a = true :=
                            leavesNonzeroList_mem ld _ hLl a hamem2
                          refine ⟨hal, ?_, hsonleaves, trivial⟩
                          rw [leavesNonzero_node_ne_nil ld _ _ _ (by simp)]
                          simp [leavesNonzeroList, hOleaves, huleaves]
termination_by X _ _ _ => sizeOf X
decreasing_by
  have h1 : sizeOf c < sizeOf s := by
    rw [hs]
    exact List.sizeOf_lt_of_mem (by simp)
  simp only [RTree.node.sizeOf_spec]
  omega

theorem list_of_length_two {A : Type} (l : List A) (h : l.length = 2) :
    ∃ a b, l = [a, b] := by
  cases l with
  | nil => simp only [List.length_nil] at h; omega
  | cons a t =>
    cases t with
    | nil => simp only [List.length_cons, List.length_nil] at h; omega
    | cons b u =>
      cases u with
      | nil => exact ⟨a, b, rfl⟩
      | cons c v => simp only [List.length_cons] at h; omega

theorem list_of_length_three {A : Type} (l : List A) (h : l.length = 3) :
    ∃ a b c, l = [a, b, c] := by
  cases l with
  | nil => simp only [List.length_nil] at h; omega
  | cons a t =>
    cases t with
    | nil => simp only [List.length_cons, List.length_nil] at h; omega
    | cons b u =>
      cases u with
      | nil => simp only [List.length_cons, List.length_nil] at h; omega
      | cons c v =>
        cases v with
        | nil => exact ⟨a, b, c, rfl⟩
        | cons x y => simp only [List.length_cons] at h; omega

/-- At a root with two or three sons, the total cached root score is the
minimum over states of the summed son cost functions. -/
theorem root_isMinOf (ld : Int → Nat) (i : Int) (d : Option Rat)
    (s : List RTree) (hL : leavesNonzeroList ld s = true)
    (hlen : s.length = 2 ∨ s.length = 3) :
    IsMinOf ((fitchPair ld (node i d s)).2)
      (sumU none (fitchPairList ld s)) := by
  rcases hlen with h2 | h3
  · obtain ⟨a, b, rfl⟩ := list_of_length_two s h2
    have ha : (fitchPair ld a).1 ≠ 0 := fitchPair_fst_ne_zero ld a
      (leavesNonzeroList_mem ld _ hL a (by simp))
    have hb : (fitchPair ld b).1 ≠ 0 := fitchPair_fst_ne_zero ld b
      (leavesNonzeroList_mem ld _ hL b (by simp))
    have hmin := combineStep_isMinOf (fitchPair ld a) (fitchPair ld b) ha hb
    rw [fitchPair_node_two]
    refine isMinOf_congr _ _ _ ?_ hmin
    intro st
    simp [sumU, fitchPairList]
  · obtain ⟨a, b, c, rfl⟩ := list_of_length_three s h3
    have ha : (fitchPair ld a).1 ≠ 0 := fitchPair_fst_ne_zero ld a
      (leavesNonzeroList_mem ld _ hL a (by simp))
    have hb : (fitchPair ld b).1 ≠ 0 := fitchPair_fst_ne_zero ld b
      (leavesNonzeroList_mem ld _ hL b (by simp))
    have hc : (fitchPair ld c).1 ≠ 0 := fitchPair_fst_ne_zero ld c
      (leavesNonzeroList_mem ld _ hL c (by simp))
    have hmin := fold3_isMinOf (fitchPair ld a) (fitchPair ld b)
      (fitchPair ld c) ha hb hc
    have hfp : fitchPair ld (node i d [a, b, c]) =
        combineStep (combineStep (fitchPair ld a) (fitchPair ld b))
          (fitchPair ld c) := rfl
    rw [hfp]
    refine isMinOf_congr _ _ _ ?_ hmin
    intro st
    simp [sumU, fitchPairList]
    omega

/-- C3 (amended): NNI delta correctness holds on bifurcating trees.  For a
tree whose root has two or three sons, whose other internal nodes all have
exactly two sons, and whose leaves carry non-empty state sets at every
pattern: if `testNNI` returns the delta `delta` and `doNNI` commits the
rearrangement, then the total parsimony score recomputed from scratch on
the new tree equals the old total score plus `delta`.  (The unrestricted
claim over multifurcating trees is refuted by
`testNNI_doNNI_claim_counterexample`.) -/
theorem testNNI_doNNI_delta (ld : Nat → Int → Nat) (w : Nat → Nat) (n : Nat)
    (t t2 : RTree) (nodeId : Int) (delta : Int)
    (hL : ∀ i, leavesNonzero (ld i) t = true)
    (hBin : binaryBelowList t.sons = true)
    (hArity : t.sons.length = 2 ∨ t.sons.length = 3)
    (hT : testNNI ld w n t nodeId = some delta)
    (hD : doNNI t nodeId = some t2) :
    (scoreOfTree ld w n t2 : Int) = (scoreOfTree ld w n t : Int) + delta := by
  obtain ⟨ri, rd, rs⟩ := t
  rw [testNNI] at hT
  rw [doNNI] at hD
  by_cases h1 : (node ri rd rs).rootId = nodeId
  · rw [if_pos h1] at hT; cases hT
  rw [if_neg h1] at hT hD
  by_cases h2 : ((node ri rd rs).sons.any (fun c => c.rootId == nodeId)) = true
  · rw [if_pos h2] at hT; cases hT
  rw [if_neg h2] at hT hD
  by_cases h3 : ∀ i ∈ List.range n,
      (testNNIGo (ld i) nodeId (node ri rd rs) none).isSome
  swap
  · rw [if_neg h3] at hT; cases hT
  rw [if_pos h3] at hT
  have key : ∀ i ∈ Finset.range n,
      ((testNNIGo (ld i) nodeId (node ri rd rs) none).getD 0) =
        (fitchPair (ld i) t2).2 := by
    intro i hi
    have hsome := h3 i (by simpa using hi)
    obtain ⟨v, hv⟩ := Option.isSome_iff_exists.mp hsome
    rw [hv]
    have harity2 : (node ri rd rs).sons.length = 2 ∨
        ((none : Option (Nat × Nat)) = none ∧
          (node ri rd rs).sons.length = 3) := by
      rcases hArity with h | h
      · exact Or.inl h
      · exact Or.inr ⟨rfl, h⟩
    have hspec := nniGo_spec (ld i) nodeId (node ri rd rs) none v t2
      (hL i) hBin harity2 (fun p hp => by cases hp) hv hD
    obtain ⟨hmin, hlen, hl2⟩ := hspec
    obtain ⟨i2, d2, s2⟩ := t2
    simp only [sons_node] at hmin hlen
    have hlen2 : s2.length = 2 ∨ s2.length = 3 := by
      simp only [sons_node] at hArity
      rcases hArity with h | h
      · exact Or.inl (by rw [hlen]; exact h)
      · exact Or.inr (by rw [hlen]; exact h)
    have hLl2 : leavesNonzeroList (ld i) s2 = true :=
      leavesNonzero_sons (ld i) i2 d2 s2 hl2
    have hroot := root_isMinOf (ld i) i2 d2 s2 hLl2 hlen2
    have hveq := isMinOf_unique v ((fitchPair (ld i) (node i2 d2 s2)).2)
      (sumU none (fitchPairList (ld i) s2)) hmin hroot
    simp only [Option.getD_some]
    exact hveq
  simp only [Option.some_inj] at hT
  subst hT
  have hsum : ∑ i ∈ Finset.range n, (w i : Int) *
        (((testNNIGo (ld i) nodeId (node ri rd rs) none).getD 0 : Nat) : Int) =
      (scoreOfTree ld w n t2 : Int) := by
    rw [scoreOfTree]
    push_cast
    refine Finset.sum_congr rfl ?_
    intro i hi
    rw [key i hi]
  rw [← hsum]
  ring

/-- Leaf states for the multifurcating counterexample to claim C3: state
sets are bitsets, leaf 4 and leaf 5 hold state 1, the others state 0. -/
def ldM : Nat → Int → Nat := fun _ i =>
  if i = 2 then 1 else if i = 3 then 1 else if i = 4 then 2
  else if i = 5 then 2 else if i = 6 then 1 else 1

/-- A multifurcating tree: the root has four sons, one of them the
internal node 1 with sons 5 and 6. -/
def tM : RTree := node 0 none [node 1 none [node 5 none [], node 6 none []],
  node 2 none [], node 3 none [], node 4 none []]

/-- The tree produced by `doNNI tM 5`: node 5 is swapped with its uncle
(node 2) and both end up appended. -/
def tM2 : RTree := node 0 none [node 1 none [node 6 none [], node 2 none []],
  node 3 none [], node 4 none [], node 5 none []]

/-- C3, counterexample to the unrestricted claim: on the multifurcating
tree `tM` the old total score is 2 and `testNNI` at node 5 reports a delta
of 0, but recomputing the score from scratch after `doNNI` gives 1, not
2 + 0.  (In the C++ code the same discrepancy makes the cached total drift
away from the true parsimony score after `doNNI` on a multifurcation.) -/
theorem testNNI_doNNI_claim_counterexample :
    testNNI ldM (fun _ => 1) 1 tM 5 = some 0 ∧
    doNNI tM 5 = some tM2 ∧
    (scoreOfTree ldM (fun _ => 1) 1 tM2 : Int) ≠
      (scoreOfTree ldM (fun _ => 1) 1 tM : Int) + 0 := by
  refine ⟨?_, ?_, ?_⟩
  · simp +decide [testNNI, testNNIGo, tM, scoreOfTree]
  · simp +decide [doNNI, doNNIGo, tM, tM2]
  · decide

/-- Leaf states for the bifurcating witness tree. -/
def ldW : Nat → Int → Nat := fun _ i =>
  if i = 3 then 1 else if i = 4 then 2 else if i = 2 then 2 else 1

/-- A bifurcating witness tree: root with two sons, one internal. -/
def tW : RTree := node 0 none [node 1 none [node 3 none [], node 4 none []],
  node 2 none []]

/-- The tree produced by `doNNI tW 3`. -/
def tW2 : RTree := node 0 none [node 1 none [node 4 none [], node 2 none []],
  node 3 none []]

/-- Witness for the amended claim C3 on the concrete bifurcating tree
`tW`: all hypotheses hold and the recomputed score equals old plus delta. -/
theorem testNNI_doNNI_delta_witness :
    (∀ i, leavesNonzero (ldW i) tW = true) ∧
    binaryBelowList tW.sons = true ∧
    (tW.sons.length = 2 ∨ tW.sons.length = 3) ∧
    testNNI ldW (fun _ => 1) 1 tW 3 = some 0 ∧
    doNNI tW 3 = some tW2 ∧
    (scoreOfTree ldW (fun _ => 1) 1 tW2 : Int) =
      (scoreOfTree ldW (fun _ => 1) 1 tW : Int) + 0 :=
  have h1 : ∀ i, leavesNonzero (ldW i) tW = true := fun _ => rfl
  have h2 : binaryBelowList tW.sons = true := by decide
  have h3 : tW.sons.length = 2 ∨ tW.sons.length = 3 := Or.inl (by decide)
  have h4 : testNNI ldW (fun _ => 1) 1 tW 3 = some 0 := by
    simp +decide [testNNI, testNNIGo, tW, scoreOfTree]
  have h5 : doNNI tW 3 = some tW2 := by
    simp +decide [doNNI, doNNIGo, tW, tW2]
  ⟨h1, h2, h3, h4, h5,
    testNNI_doNNI_delta ldW (fun _ => 1) 1 tW tW2 3 0 h1 h2 h3 h4 h5⟩

/-! ## testNNI as a state transformer (claim C4)

The C++ `testNNI` is a `const` method: it reads the tree and the cached
directional arrays through `const` accessors (`getNode`, `getFather`,
`getSon`, `nodeData`, `getBitsetsArrayForNeighbor`, ...), stores every
intermediate in local vectors, and never assigns to a member.  The
state-passing embedding therefore pairs the returned delta with the
(unchanged) tree-and-caches state; in this embedding the caches are the
recursive `fitchPair` values of the tree, so the tree is the whole state. -/

/-- `DRTreeParsimonyScore::testNNI` as a state transformer: the same guard
and recombination flow as `testNNI`, returning the delta together with the
state it leaves behind. -/
def testNNIWithState (ld : Nat → Int → Nat) (w : Nat → Nat) (n : Nat)
    (t : RTree) (nodeId : Int) : Option Int × RTree :=
  if t.rootId = nodeId then (none, t)
  else if t.sons.any (fun c => c.rootId == nodeId) then (none, t)
  else if ∀ i ∈ List.range n, (testNNIGo (ld i) nodeId t none).isSome then
    (some ((∑ i ∈ Finset.range n,
        (w i : Int) * ((testNNIGo (ld i) nodeId t none).getD 0 : Int)) -
      (scoreOfTree ld w n t : Int)), t)
  else (none, t)

/-- C4: `testNNI` is non-mutating.  For every tree state, node id, leaf
data, weights and pattern count, the state-passing `testNNI` returns the
input state unchanged (topology, son orders, branch lengths and hence all
cached `fitchPair` arrays recomputed from it are identical), and its
returned delta is exactly the pure `testNNI` value. -/
theorem testNNI_nonmutating (ld : Nat → Int → Nat) (w : Nat → Nat) (n : Nat)
    (t : RTree) (nodeId : Int) :
    (testNNIWithState ld w n t nodeId).2 = t ∧
    (testNNIWithState ld w n t nodeId).1 = testNNI ld w n t nodeId := by
  constructor
  · rw [testNNIWithState]
    split
    · rfl
    split
    · rfl
    split
    · rfl
    · rfl
  · rw [testNNIWithState, testNNI]
    split
    · rfl
    split
    · rfl
    split
    · rfl
    · rfl

/-- C5: `testNNI` and `doNNI` pick the same uncle.  The two index
expressions (source lines 289 and 363-364) are the same function of the
parent's position: position minus one when the position exceeds 1,
otherwise one minus the position; and on a bifurcating grandfather
(`getSon` over two sons) the chosen uncle is the other son. -/
theorem uncle_selection_agree :
    (∀ p, doNNIUncleIndex p = testNNIUncleIndex p) ∧
    (∀ p, p > 1 → testNNIUncleIndex p = p - 1) ∧
    (∀ p, ¬(p > 1) → testNNIUncleIndex p = 1 - p) ∧
    (∀ (a b : RTree), [a, b].get? (testNNIUncleIndex 0) = some b ∧
      [a, b].get? (testNNIUncleIndex 1) = some a) := by
  refine ⟨fun p => rfl, fun p hp => ?_, fun p hp => ?_,
    fun a b => ⟨rfl, rfl⟩⟩
  · rw [testNNIUncleIndex, if_pos hp]
  · rw [testNNIUncleIndex, if_neg hp]

/-- Witness for C5 at concrete positions 2 and 0. -/
theorem uncle_selection_agree_witness :
    doNNIUncleIndex 2 = testNNIUncleIndex 2 ∧
    testNNIUncleIndex 2 = 1 ∧ testNNIUncleIndex 0 = 1 :=
  ⟨uncle_selection_agree.1 2,
    (uncle_selection_agree.2.1 2 (by decide)).trans (by decide),
    (uncle_selection_agree.2.2.1 0 (by decide)).trans (by decide)⟩

end RTree

end BppPhyl
namespace BppPhyl

/-- A sub-likelihood instance owned at an expansion point: its likelihood
array (indexed by site, rate class, state) and its HyperNode probability. -/
structure MixedSubInstance where
  arr : Nat → Nat → Nat → Rat
  prob : Rat

/-- `RNonHomogeneousMixedTreeLikelihood::computeSubtreeLikelihood` at an
expansion point, entrywise: the entry is first reset to 0; if the owning
instance probability is 0 the function returns with the entry still 0;
otherwise each sub-instance accumulates its entry times its probability
divided by the owner probability. -/
def computeSubtreeLikelihoodEntry (subs : List MixedSubInstance) (pr : Rat)
    (i c x : Nat) : Rat :=
  if pr = 0 then 0
  else subs.foldl (fun acc v => acc + v.arr i c x * v.prob / pr) 0

theorem foldl_add_map_sum {A : Type} (f : A → Rat) :
    ∀ (l : List A) (a : Rat),
      l.foldl (fun acc v => acc + f v) a = a + (l.map f).sum := by
  intro l
  induction l with
  | nil => intro a; simp
  | cons v vs ih =>
      intro a
      rw [List.foldl_cons, ih, List.map_cons, List.sum_cons]
      ring

/-- C6: at an expansion point the likelihood array entry is zeroed first;
when the owning instance has probability 0 the entry is left 0 and no
division happens (no error is raised: the function is total); otherwise the
entry is the sum over sub-instances of entry times probability divided by
the owner probability. -/
theorem computeSubtreeLikelihood_spec (subs : List MixedSubInstance)
    (pr : Rat) (i c x : Nat) :
    (pr = 0 → computeSubtreeLikelihoodEntry subs pr i c x = 0) ∧
    (pr ≠ 0 → computeSubtreeLikelihoodEntry subs pr i c x =
      (subs.map (fun v => v.arr i c x * v.prob / pr)).sum) := by
  constructor
  · intro h
    rw [computeSubtreeLikelihoodEntry, if_pos h]
  · intro h
    rw [computeSubtreeLikelihoodEntry, if_neg h,
      foldl_add_map_sum (fun v => v.arr i c x * v.prob / pr) subs 0,
      zero_add]

/-- Witness for C6: one sub-instance with entry 4 and probability 1; owner
probability 0 leaves the entry 0, owner probability 2 gives 4 * 1 / 2. -/
theorem computeSubtreeLikelihood_spec_witness :
    computeSubtreeLikelihoodEntry [⟨fun _ _ _ => 4, 1⟩] 0 0 0 0 = 0 ∧
    computeSubtreeLikelihoodEntry [⟨fun _ _ _ => 4, 1⟩] 2 0 0 0 =
      ([(⟨fun _ _ _ => 4, 1⟩ : MixedSubInstance)].map
        (fun v => v.arr 0 0 0 * v.prob / 2)).sum :=
  ⟨(computeSubtreeLikelihood_spec [⟨fun _ _ _ => 4, 1⟩] 0 0 0 0).1 rfl,
    (computeSubtreeLikelihood_spec [⟨fun _ _ _ => 4, 1⟩] 2 0 0 0).2
      (by norm_num)⟩

/-! ## detailedEvolve (claim C10)

`AbstractMutationProcess::detailedEvolve(initialState, finalState, time)`
(MutationProcess.cpp lines 89-132).  The randomness is embedded as
oracles: `t0 i` is the first waiting time drawn in attempt `i` (the
conditional draw when the endpoint states differ, the plain exponential
draw otherwise), and `draws i` is the finite list of subsequent
(mutated state, waiting time) draws consumed by attempt `i`'s while loop;
exhausting the list stands for a next waiting time that overshoots the
branch, which ends the loop exactly as in the source. -/

/-- `bpp::MutationPath`: initial state, total branch time, and the list of
(state, time) events added so far. -/
structure MutationPath where
  initialState : Nat
  totalTime : Rat
  events : List (Nat × Rat)
deriving DecidableEq

/-- `MutationPath::addEvent`: record one more (state, time) pair. -/
def MutationPath.addEvent (mp : MutationPath) (s : Nat) (t : Rat) :
    MutationPath :=
  ⟨mp.initialState, mp.totalTime, mp.events ++ [(s, t)]⟩

/-- The state a mutation path ends in: the state of the last recorded
event, or the initial state when no event was recorded. -/
def MutationPath.endState (mp : MutationPath) : Nat :=
  match mp.events.getLast? with
  | some e => e.1
  | none => mp.initialState

/-- One attempt's while loop (`while (t < time)`): mutate, record the
event, and advance the clock by the drawn waiting time, consuming the
attempt's draw list. -/
def simulateLoop (time : Rat) : List (Nat × Rat) → Rat → Nat →
    MutationPath → MutationPath × Nat
  | draws, t, cur, mp =>
    if t < time then
      match draws with
      | [] => (mp, cur)
      | (s, dt) :: rest => simulateLoop time rest (t + dt) s
          (mp.addEvent s t)
    else (mp, cur)

/-- The retry loop of `detailedEvolve`: run one attempt from a cleared
path; return its path if it ended in `finalState`, otherwise try again,
and after the retry budget is exhausted append `finalState` at the end of
the branch (the emergency fallback). -/
def detailedEvolveGo (initialState finalState : Nat) (time : Rat)
    (t0 : Nat → Rat) (draws : Nat → List (Nat × Rat)) :
    Nat → Nat → MutationPath
  | 0, _ =>
      MutationPath.addEvent ⟨initialState, time, []⟩ finalState time
  | k + 1, i =>
      if (simulateLoop time (draws i) (t0 i) initialState
            ⟨initialState, time, []⟩).2 = finalState then
        (simulateLoop time (draws i) (t0 i) initialState
          ⟨initialState, time, []⟩).1
      else detailedEvolveGo initialState finalState time t0 draws k (i + 1)

/-- `AbstractMutationProcess::detailedEvolve(initialState, finalState,
time)`: at most `maxIterNum = 1000` simulation attempts, then the
deterministic fallback. -/
def detailedEvolve (initialState finalState : Nat) (time : Rat)
    (t0 : Nat → Rat) (draws : Nat → List (Nat × Rat)) : MutationPath :=
  detailedEvolveGo initialState finalState time t0 draws 1000 0

theorem simulateLoop_endState (time : Rat) :
    ∀ (draws : List (Nat × Rat)) (t : Rat) (cur : Nat) (mp : MutationPath),
      mp.endState = cur →
      (simulateLoop time draws t cur mp).1.endState =
        (simulateLoop time draws t cur mp).2 := by
  intro draws
  induction draws with
  | nil =>
      intro t cur mp h
      rw [simulateLoop]
      split
      · exact h
      · exact h
  | cons d rest ih =>
      intro t cur mp h
      rw [simulateLoop]
      split
      · obtain ⟨s, dt⟩ := d
        exact ih (t + dt) s (mp.addEvent s t)
          (by simp [MutationPath.endState, MutationPath.addEvent,
            List.getLast?_concat])
      · exact h

/-- C10: `detailedEvolve` never fails.  For every initial state, final
state, branch time and random draw oracles, the returned mutation path
ends in `finalState`: either some of the at most 1000 attempts reached it,
or the fallback appended `finalState` at the end of the branch. -/
theorem detailedEvolve_ends_in_finalState (initialState finalState : Nat)
    (time : Rat) (t0 : Nat → Rat) (draws : Nat → List (Nat × Rat)) :
    (detailedEvolve initialState finalState time t0 draws).endState =
      finalState := by
  have go : ∀ (k i : Nat),
      (detailedEvolveGo initialState finalState time t0 draws k
        i).endState = finalState := by
    intro k
    induction k with
    | zero =>
        intro i
        simp [detailedEvolveGo, MutationPath.endState,
          MutationPath.addEvent, List.getLast?_concat]
    | succ k ih =>
        intro i
        rw [detailedEvolveGo]
        split
        · next hres =>
            rw [← hres]
            exact simulateLoop_endState time (draws i) (t0 i) initialState
              ⟨initialState, time, []⟩ rfl
        · exact ih (i + 1)
  exact go 1000 0

end BppPhyl

namespace BppPhyl
namespace RTree

/-! ## Id bookkeeping for rootAt and newOutGroup (claim C8) -/

/-- Ids of every node of a forest. -/
def idsList (l : List RTree) : List Int := (subtreesList l).map rootId

theorem idsOf_node (i : Int) (d : Option Rat) (s : List RTree) :
    idsOf (node i d s) = i :: idsList s := rfl

theorem idsList_nil : idsList [] = [] := rfl

theorem subtreesList_append (a b : List RTree) :
    subtreesList (a ++ b) = subtreesList a ++ subtreesList b := by
  induction a with
  | nil => simp [subtreesList]
  | cons t ts ih => simp [subtreesList, ih]

theorem idsList_cons (t : RTree) (ts : List RTree) :
    idsList (t :: ts) = idsOf t ++ idsList ts := by
  simp [idsList, subtreesList, idsOf]

theorem idsList_append (a b : List RTree) :
    idsList (a ++ b) = idsList a ++ idsList b := by
  simp [idsList, subtreesList_append]

theorem mem_subtrees_self (t : RTree) : t ∈ subtrees t := by
  obtain ⟨i, d, s⟩ := t
  rw [subtrees]
  exact List.mem_cons_self _ _

theorem mem_subtreesList_iff (u : RTree) :
    ∀ (l : List RTree), u ∈ subtreesList l ↔ ∃ y ∈ l, u ∈ subtrees y := by
  intro l
  induction l with
  | nil => simp [subtreesList]
  | cons t ts ih =>
      rw [subtreesList, List.mem_append, ih]
      constructor
      · rintro (h | ⟨y, hy, hu⟩)
        · exact ⟨t, List.mem_cons_self _ _, h⟩
        · exact ⟨y, List.mem_cons_of_mem _ hy, hu⟩
      · rintro ⟨y, hy, hu⟩
        rcases List.mem_cons.mp hy with rfl | hy2
        · exact Or.inl hu
        · exact Or.inr ⟨y, hy2, hu⟩

theorem rootId_mem_idsOf {u t : RTree} (h : u ∈ subtrees t) :
    u.rootId ∈ idsOf t := List.mem_map_of_mem rootId h

theorem rootId_mem_idsList {u : RTree} {l : List RTree}
    (h : u ∈ subtreesList l) : u.rootId ∈ idsList l :=
  List.mem_map_of_mem rootId h

theorem mem_sons_subtrees {out w : RTree} (h : out ∈ w.sons) :
    out ∈ subtrees w := by
  obtain ⟨i, d, s⟩ := w
  rw [subtrees]
  exact List.mem_cons_of_mem _
    ((mem_subtreesList_iff out s).mpr ⟨out, h, mem_subtrees_self out⟩)

mutual

theorem containsId_iff : ∀ (t : RTree) (x : Int),
    containsId t x = true ↔ x ∈ idsOf t
  | node i d s, x => by
      rw [containsId, idsOf_node, Bool.or_eq_true, beq_iff_eq, List.mem_cons]
      exact or_congr (by constructor <;> (intro h; exact h.symm))
        (containsIdList_iff s x)

theorem containsIdList_iff : ∀ (l : List RTree) (x : Int),
    containsIdList l x = true ↔ x ∈ idsList l
  | [], x => by simp [containsIdList, idsList, subtreesList]
  | t :: ts, x => by
      rw [containsIdList, idsList_cons, Bool.or_eq_true, List.mem_append]
      exact or_congr (containsId_iff t x) (containsIdList_iff ts x)

end

mutual

theorem sizeOf_lt_of_mem_subtreesList :
    ∀ (l : List RTree) (u : RTree), u ∈ subtreesList l → sizeOf u < sizeOf l
  | [], u, h => by simp [subtreesList] at h
  | t :: ts, u, h => by
      rw [subtreesList] at h
      rcases List.mem_append.mp h with h1 | h1
      · have h2 := sizeOf_le_of_mem_subtrees t u h1
        simp only [List.cons.sizeOf_spec]
        omega
      · have h2 := sizeOf_lt_of_mem_subtreesList ts u h1
        simp only [List.cons.sizeOf_spec]
        omega

theorem sizeOf_le_of_mem_subtrees :
    ∀ (t u : RTree), u ∈ subtrees t → sizeOf u ≤ sizeOf t
  | node i d s, u, h => by
      rw [subtrees] at h
      rcases List.mem_cons.mp h with rfl | h1
      · exact le_refl _
      · have h2 := sizeOf_lt_of_mem_subtreesList s u h1
        simp only [RTree.node.sizeOf_spec]
        omega

end

theorem subtrees_subset :
    ∀ (t w : RTree), w ∈ subtrees t → ∀ v ∈ subtrees w, v ∈ subtrees t
  | node i d s, w, hw, v, hv => by
      rw [subtrees] at hw
      rcases List.mem_cons.mp hw with rfl | h1
      · exact hv
      · obtain ⟨y, hy, hwy⟩ := (mem_subtreesList_iff w s).mp h1
        have hvy := subtrees_subset y w hwy v hv
        rw [subtrees]
        exact List.mem_cons_of_mem _ ((mem_subtreesList_iff v s).mpr ⟨y, hy, hvy⟩)
termination_by t _ _ _ _ => sizeOf t
decreasing_by
  simp only [RTree.node.sizeOf_spec]
  have := List.sizeOf_lt_of_mem hy
  omega

theorem mem_subtreesList_trans {out w : RTree} {l : List RTree}
    (hw : w ∈ subtreesList l) (hout : out ∈ subtrees w) :
    out ∈ subtreesList l := by
  obtain ⟨y, hy, hwy⟩ := (mem_subtreesList_iff w l).mp hw
  exact (mem_subtreesList_iff out l).mpr ⟨y, hy, subtrees_subset y w hwy out hout⟩

theorem mem_idsOf_mem_idsList {y : RTree} {l : List RTree} {x : Int}
    (hy : y ∈ l) (hx : x ∈ idsOf y) : x ∈ idsList l := by
  obtain ⟨u, hu, rfl⟩ := List.mem_map.mp hx
  exact rootId_mem_idsList ((mem_subtreesList_iff u l).mpr ⟨y, hy, hu⟩)

theorem nodup_idsOf_of_mem {y : RTree} {s : List RTree} (hy : y ∈ s)
    (hnd : (idsList s).Nodup) : (idsOf y).Nodup := by
  obtain ⟨p, q, rfl⟩ := List.append_of_mem hy
  rw [idsList_append, idsList_cons] at hnd
  exact hnd.of_append_right.of_append_left

theorem ids_disjoint_of_mem {c y : RTree} {s : List RTree} (hc : c ∈ s)
    (hy : y ∈ s) (hne : c ≠ y) (hnd : (idsList s).Nodup) {x : Int}
    (hxc : x ∈ idsOf c) (hxy : x ∈ idsOf y) : False := by
  obtain ⟨p, q, rfl⟩ := List.append_of_mem hc
  rw [idsList_append, idsList_cons] at hnd
  rcases List.mem_append.mp hy with h1 | h1
  · have hxp : x ∈ idsList p := mem_idsOf_mem_idsList h1 hxy
    exact (List.disjoint_of_nodup_append hnd) hxp
      (List.mem_append.mpr (Or.inl hxc))
  · rcases List.mem_cons.mp h1 with rfl | h2
    · exact hne rfl
    · have hxq : x ∈ idsList q := mem_idsOf_mem_idsList h2 hxy
      exact (List.disjoint_of_nodup_append hnd.of_append_right) hxc hxq

theorem subtrees_root_unique {t u : RTree} (hnd : (idsOf t).Nodup)
    (hu : u ∈ subtrees t) (hid : u.rootId = t.rootId) : u = t := by
  obtain ⟨i, d, s⟩ := t
  rw [subtrees] at hu
  rcases List.mem_cons.mp hu with rfl | h1
  · rfl
  · exfalso
    rw [idsOf_node] at hnd
    have hx : u.rootId ∈ idsList s := rootId_mem_idsList h1
    rw [hid] at hx
    simp only [rootId_node] at hx
    exact (List.nodup_cons.mp hnd).1 hx

theorem find?_first_out : ∀ (s : List RTree) (out : RTree),
    (idsList s).Nodup → out ∈ s →
    s.find? (fun c => c.rootId == out.rootId) = some out
  | a :: rest, out, hnd, hmem => by
      rw [idsList_cons] at hnd
      rcases List.mem_cons.mp hmem with rfl | h1
      · exact List.find?_cons_of_pos _ (by simp)
      · by_cases h : (a.rootId == out.rootId) = true
        · exfalso
          have hx1 : out.rootId ∈ idsOf a := by
            rw [beq_iff_eq] at h
            rw [← h]
            exact rootId_mem_idsOf (mem_subtrees_self a)
          have hx2 : out.rootId ∈ idsList rest :=
            rootId_mem_idsList ((mem_subtreesList_iff out rest).mpr
              ⟨out, h1, mem_subtrees_self out⟩)
          exact (List.disjoint_of_nodup_append hnd) hx1 hx2
        · rw [List.find?_cons_of_neg _ (by simpa using h)]
          exact find?_first_out rest out hnd.of_append_right h1

theorem find?_append_some {p : RTree → Bool} :
    ∀ (l1 l2 : List RTree) (u : RTree), l1.find? p = some u →
      (l1 ++ l2).find? p = some u
  | [], _, u, h => by simp [List.find?] at h
  | a :: rest, l2, u, h => by
      by_cases hp : p a = true
      · rw [List.find?_cons_of_pos _ hp] at h
        rw [List.cons_append, List.find?_cons_of_pos _ hp]
        exact h
      · rw [List.find?_cons_of_neg _ (by simpa using hp)] at h
        rw [List.cons_append, List.find?_cons_of_neg _ (by simpa using hp)]
        exact find?_append_some rest l2 u h

mutual

theorem fatherIdOf_eq_none : ∀ (t : RTree) (x : Int),
    x ∉ idsOf t → fatherIdOf t x = none
  | node i d s, x, hx => by
      rw [idsOf_node] at hx
      have hxs : x ∉ idsList s := fun h => hx (List.mem_cons_of_mem _ h)
      have hany : s.any (fun c => c.rootId == x) = false := by
        rw [Bool.eq_false_iff]
        intro h
        obtain ⟨c, hc, hcx⟩ := List.any_eq_true.mp h
        rw [beq_iff_eq] at hcx
        exact hxs (hcx ▸ rootId_mem_idsList ((mem_subtreesList_iff c s).mpr
          ⟨c, hc, mem_subtrees_self c⟩))
      rw [fatherIdOf, if_neg (by simp [hany])]
      exact fatherIdOfList_eq_none s x hxs

theorem fatherIdOfList_eq_none : ∀ (l : List RTree) (x : Int),
    x ∉ idsList l → fatherIdOfList l x = none
  | [], x, _ => rfl
  | t :: ts, x, hx => by
      rw [idsList_cons] at hx
      rw [fatherIdOfList,
        fatherIdOf_eq_none t x (fun h => hx (List.mem_append.mpr (Or.inl h)))]
      exact fatherIdOfList_eq_none ts x
        (fun h => hx (List.mem_append.mpr (Or.inr h)))

end

theorem splitFirstP_isSome {p : RTree → Bool} :
    ∀ (l : List RTree), (∃ y ∈ l, p y = true) →
      ∃ pre c post, splitFirstP p l = some (pre, c, post)
  | [], h => by
      obtain ⟨y, hy, _⟩ := h
      simp at hy
  | a :: rest, h => by
      rw [splitFirstP]
      by_cases hp : p a = true
      · rw [if_pos hp]
        exact ⟨[], a, rest, rfl⟩
      · rw [if_neg hp]
        obtain ⟨y, hy, hpy⟩ := h
        rcases List.mem_cons.mp hy with rfl | h2
        · exact absurd hpy hp
        · obtain ⟨pre, c, post, hsp⟩ := splitFirstP_isSome rest ⟨y, h2, hpy⟩
          rw [hsp]
          exact ⟨a :: pre, c, post, rfl⟩

theorem sons_sizeOf_lt {out w : RTree} (h : out ∈ w.sons) :
    sizeOf out < sizeOf w := by
  obtain ⟨i, d, ws⟩ := w
  simp only [sons_node] at h
  have := List.sizeOf_lt_of_mem h
  simp only [RTree.node.sizeOf_spec]
  omega

mutual

theorem fatherIdOf_finds : ∀ (t : RTree) (w out : RTree) (x : Int),
    (idsOf t).Nodup → w ∈ subtrees t → out ∈ w.sons → out.rootId = x →
    fatherIdOf t x = some w.rootId
  | node i d s, w, out, x, hnd, hw, hout, hx => by
      rw [subtrees] at hw
      rcases List.mem_cons.mp hw with rfl | h1
      · -- the father is the root itself
        rw [fatherIdOf, if_pos]
        · rfl
        · simp only [sons_node] at hout
          exact List.any_eq_true.mpr ⟨out, hout, by simp [hx]⟩
      · -- the father sits strictly inside one of the sons
        rw [idsOf_node] at hnd
        have hndl : (idsList s).Nodup := (List.nodup_cons.mp hnd).2
        have houtsub : out ∈ subtreesList s :=
          mem_subtreesList_trans h1 (mem_sons_subtrees hout)
        have hxs : x ∈ idsList s := hx ▸ rootId_mem_idsList houtsub
        have hany : s.any (fun c => c.rootId == x) = false := by
          rw [Bool.eq_false_iff]
          intro h
          obtain ⟨c, hc, hcx⟩ := List.any_eq_true.mp h
          rw [beq_iff_eq] at hcx
          obtain ⟨y, hy, hwy⟩ := (mem_subtreesList_iff w s).mp h1
          have houty : out ∈ subtrees y :=
            subtrees_subset y w hwy out (mem_sons_subtrees hout)
          have hxy : x ∈ idsOf y := hx ▸ rootId_mem_idsOf houty
          have hxc : x ∈ idsOf c := by
            rw [← hcx]
            exact rootId_mem_idsOf (mem_subtrees_self c)
          by_cases hcy : c = y
          · subst hcy
            -- x is both the root id of c and an id strictly inside c
            have houtne : out ≠ c := by
              intro he
              subst he
              have h2 := sons_sizeOf_lt hout
              have h3 := sizeOf_le_of_mem_subtrees out w hwy
              omega
            obtain ⟨ci, cd, cs⟩ := c
            rw [subtrees] at houty
            rcases List.mem_cons.mp houty with rfl | h4
            · exact houtne rfl
            · rw [idsOf_node] at *
              have h5 : x ∈ idsList cs := hx ▸ rootId_mem_idsList h4
              have h6 : ci = x := by
                rw [← hcx]; rfl
              have h7 := nodup_idsOf_of_mem hc hndl
              rw [idsOf_node] at h7
              rw [h6] at h7
              exact (List.nodup_cons.mp h7).1 h5
          · exact ids_disjoint_of_mem hc hy hcy hndl hxc hxy
        rw [fatherIdOf, if_neg (by simp [hany])]
        exact fatherIdOfList_finds s w out x hndl h1 hout hx

theorem fatherIdOfList_finds : ∀ (l : List RTree) (w out : RTree) (x : Int),
    (idsList l).Nodup → w ∈ subtreesList l → out ∈ w.sons → out.rootId = x →
    fatherIdOfList l x = some w.rootId
  | t :: ts, w, out, x, hnd, hw, hout, hx => by
      rw [idsList_cons] at hnd
      rw [subtreesList] at hw
      rcases List.mem_append.mp hw with h1 | h1
      · rw [fatherIdOfList,
          fatherIdOf_finds t w out x hnd.of_append_left h1 hout hx]
      · have houtts : out ∈ subtreesList ts :=
          mem_subtreesList_trans h1 (mem_sons_subtrees hout)
        have hxts : x ∈ idsList ts := hx ▸ rootId_mem_idsList houtts
        have hxnot : x ∉ idsOf t := fun h =>
          (List.disjoint_of_nodup_append hnd) h hxts
        rw [fatherIdOfList, fatherIdOf_eq_none t x hxnot]
        exact fatherIdOfList_finds ts w out x hnd.of_append_right h1 hout hx

end

/-- Ids carried by the `up` accumulator of `rootAtDown`. -/
def upIds : Option RTree → List Int
  | none => []
  | some u => idsOf u

theorem idsList_toList (up : Option RTree) :
    idsList up.toList = upIds up := by
  cases up with
  | none => rfl
  | some u => simp [Option.toList, idsList_cons, idsList_nil, upIds]

/-- Core of `rootAt`: descending to the node `fid`, the result is rooted at
`fid` with no branch length, and the first son carrying the outgroup id is
the untouched outgroup subtree `out` (the son of the `fid` node). -/
theorem rootAtDown_spec : ∀ (t : RTree) (up : Option RTree) (fid : Int)
    (w out : RTree),
    (idsOf t ++ upIds up).Nodup →
    w ∈ subtrees t → w.rootId = fid → out ∈ w.sons →
    ∃ sons2, rootAtDown fid t up = node fid none sons2 ∧
      sons2.find? (fun c => c.rootId == out.rootId) = some out
  | node i d s, up, fid, w, out, hnd, hw, hwid, hout => by
      rw [rootAtDown]
      by_cases hi : i = fid
      · rw [if_pos hi]
        subst hi
        have hndt : (idsOf (node i d s)).Nodup := hnd.of_append_left
        have hwt : w = node i d s := subtrees_root_unique hndt hw (by
          rw [hwid, rootId_node])
        subst hwt
        simp only [sons_node] at hout
        rw [idsOf_node] at hndt
        have hfs := find?_first_out s out (List.nodup_cons.mp hndt).2 hout
        exact ⟨s ++ up.toList, rfl, find?_append_some s up.toList out hfs⟩
      · rw [if_neg hi]
        -- the node fid sits strictly inside one of the sons
        have hwin : w ∈ subtreesList s := by
          cases (List.mem_cons.mp (by rw [subtrees] at hw; exact hw)) with
          | inl h => exact absurd (by rw [h] at hwid; simpa using hwid) hi
          | inr h => exact h
        obtain ⟨y, hy, hwy⟩ := (mem_subtreesList_iff w s).mp hwin
        have hcy : containsId y fid = true := (containsId_iff y fid).mpr
          (hwid ▸ rootId_mem_idsOf hwy)
        obtain ⟨pre, c, post, hsp⟩ :=
          @splitFirstP_isSome (fun c => containsId c fid) s ⟨y, hy, hcy⟩
        rw [hsp]
        obtain ⟨hs, hpc, hpre⟩ := splitFirstP_eq _ s pre post c hsp
        have hndt : (idsOf (node i d s)).Nodup := hnd.of_append_left
        rw [idsOf_node] at hndt
        have hndl : (idsList s).Nodup := (List.nodup_cons.mp hndt).2
        -- the son found by splitFirstP is the son holding the fid node
        have hwc : w ∈ subtrees c := by
          have hfidc : fid ∈ idsOf c := (containsId_iff c fid).mp hpc
          rw [hs] at hy hndl
          rcases List.mem_append.mp hy with h1 | h1
          · rw [hpre y h1] at hcy
            cases hcy
          · rcases List.mem_cons.mp h1 with rfl | h2
            · exact hwy
            · exfalso
              have hfidy : fid ∈ idsOf y := (containsId_iff y fid).mp hcy
              have hfidq : fid ∈ idsList post := mem_idsOf_mem_idsList h2 hfidy
              rw [idsList_append, idsList_cons] at hndl
              exact (List.disjoint_of_nodup_append hndl.of_append_right)
                hfidc hfidq
        -- the id multiset is preserved, so the Nodup invariant carries over
        have hnd2 : (idsOf c ++
            upIds (some (node i c.rootDist (pre ++ post ++ up.toList)))).Nodup := by
          have hperm : (idsOf (node i d s) ++ upIds up).Perm
              (idsOf c ++ upIds (some (node i c.rootDist
                (pre ++ post ++ up.toList)))) := by
            rw [List.perm_iff_count]
            intro a
            rw [hs]
            simp only [idsOf_node, upIds, idsList_append, idsList_cons,
              idsList_toList, List.count_append, List.count_cons]
            ring
          exact hperm.nodup hnd
        have hrec := rootAtDown_spec c
          (some (node i c.rootDist (pre ++ post ++ up.toList))) fid w out
          hnd2 hwc hwid hout
        exact hrec
termination_by t _ _ _ _ _ _ _ _ => sizeOf t
decreasing_by
  have hm := splitFirstP_sizeOf _ _ _ _ _ hsp
  simp only [RTree.node.sizeOf_spec]
  omega

theorem rootId_setDist (t : RTree) (d : Option Rat) :
    (t.setDist d).rootId = t.rootId := by
  obtain ⟨i, d0, s⟩ := t
  rfl

theorem sons_setDist (t : RTree) (d : Option Rat) :
    (t.setDist d).sons = t.sons := by
  obtain ⟨i, d0, s⟩ := t
  rfl

theorem rootDist_setDist (t : RTree) (d : Option Rat) :
    (t.setDist d).rootDist = d := by
  obtain ⟨i, d0, s⟩ := t
  rfl

theorem idsOf_setDist (t : RTree) (d : Option Rat) :
    idsOf (t.setDist d) = idsOf t := by
  obtain ⟨i, d0, s⟩ := t
  rfl

mutual

theorem subtreeWithId_mem : ∀ (t : RTree) (x : Int) (u : RTree),
    subtreeWithId t x = some u → u ∈ subtrees t ∧ u.rootId = x
  | node i d s, x, u, h => by
      rw [subtreeWithId] at h
      by_cases hi : i = x
      · rw [if_pos hi] at h
        injection h with h
        subst h
        exact ⟨mem_subtrees_self _, by simp [hi]⟩
      · rw [if_neg hi] at h
        obtain ⟨hm, hid⟩ := subtreeWithIdList_mem s x u h
        exact ⟨by rw [subtrees]; exact List.mem_cons_of_mem _ hm, hid⟩

theorem subtreeWithIdList_mem : ∀ (l : List RTree) (x : Int) (u : RTree),
    subtreeWithIdList l x = some u → u ∈ subtreesList l ∧ u.rootId = x
  | [], x, u, h => by cases h
  | t :: ts, x, u, h => by
      rw [subtreeWithIdList] at h
      cases hf : subtreeWithId t x with
      | some v =>
          rw [hf] at h
          injection h with h
          subst h
          obtain ⟨hm, hid⟩ := subtreeWithId_mem t x v hf
          exact ⟨by rw [subtreesList]; exact List.mem_append.mpr (Or.inl hm),
            hid⟩
      | none =>
          rw [hf] at h
          obtain ⟨hm, hid⟩ := subtreeWithIdList_mem ts x u h
          exact ⟨by rw [subtreesList]; exact List.mem_append.mpr (Or.inr hm),
            hid⟩

end

theorem father_exists : ∀ (t u : RTree), u ∈ subtrees t → u ≠ t →
    ∃ w ∈ subtrees t, u ∈ w.sons
  | node i d s, u, hu, hne => by
      rw [subtrees] at hu
      rcases List.mem_cons.mp hu with rfl | h1
      · exact absurd rfl hne
      · obtain ⟨y, hy, huy⟩ := (mem_subtreesList_iff u s).mp h1
        by_cases he : u = y
        · subst he
          exact ⟨node i d s, mem_subtrees_self _, by simpa using hy⟩
        · obtain ⟨w, hw, hus⟩ := father_exists y u huy he
          exact ⟨w, by
            rw [subtrees]
            exact List.mem_cons_of_mem _
              ((mem_subtreesList_iff w s).mpr ⟨y, hy, hw⟩), hus⟩
termination_by t _ _ _ => sizeOf t
decreasing_by
  have := List.sizeOf_lt_of_mem hy
  simp only [RTree.node.sizeOf_spec]
  omega

theorem subtrees_setDist (t : RTree) (d : Option Rat) :
    subtrees (t.setDist d) = (t.setDist d) :: subtreesList t.sons := by
  obtain ⟨i, d0, s⟩ := t
  rfl

/-- Transport of a father-son pair into the merged tree built by `unroot`:
the son list of `s1` extended with the re-lengthed `s2`. -/
theorem merged_transport (s1 s2 : RTree) (d : Option Rat) (out w : RTree)
    (hw : w ∈ subtrees s1 ∨ w ∈ subtrees s2) (hout : out ∈ w.sons) :
    ∃ w2 ∈ subtrees (node s1.rootId none (s1.sons ++ [s2.setDist d])),
      out ∈ w2.sons ∧ w2.rootId = w.rootId := by
  rcases hw with h | h
  · obtain ⟨i1, d1, ss1⟩ := s1
    rw [subtrees] at h
    rcases List.mem_cons.mp h with rfl | h1
    · refine ⟨node i1 none (sons (node i1 d1 ss1) ++ [s2.setDist d]),
        mem_subtrees_self _, ?_, rfl⟩
      simp only [sons_node] at hout ⊢
      exact List.mem_append.mpr (Or.inl hout)
    · refine ⟨w, ?_, hout, rfl⟩
      rw [subtrees]
      refine List.mem_cons_of_mem _ ?_
      rw [sons_node, subtreesList_append]
      exact List.mem_append.mpr (Or.inl h1)
  · have hsd : subtrees s2 = s2 :: subtreesList s2.sons := by
      obtain ⟨i2, d2, ss2⟩ := s2
      rfl
    rw [hsd] at h
    have hmemsons : s2.setDist d ∈
        (node s1.rootId none (s1.sons ++ [s2.setDist d])).sons := by
      rw [sons_node]
      exact List.mem_append.mpr (Or.inr (List.mem_cons_self _ _))
    have hsub2 : s2.setDist d ∈
        subtrees (node s1.rootId none (s1.sons ++ [s2.setDist d])) :=
      mem_sons_subtrees hmemsons
    rcases List.mem_cons.mp h with rfl | h1
    · exact ⟨w.setDist d, hsub2, by rw [sons_setDist]; exact hout,
        rootId_setDist w d⟩
    · refine ⟨w, ?_, hout, rfl⟩
      have : w ∈ subtrees (s2.setDist d) := by
        rw [subtrees_setDist]
        exact List.mem_cons_of_mem _ h1
      exact subtrees_subset _ _ hsub2 w this

/-- Id bookkeeping across `unroot`: the merged tree keeps exactly the ids
below the removed root. -/
theorem merged_nodup (s1 s2 : RTree) (d : Option Rat)
    (hnd : (idsOf s1 ++ idsOf s2).Nodup) :
    (idsOf (node s1.rootId none (s1.sons ++ [s2.setDist d]))).Nodup := by
  obtain ⟨i1, d1, ss1⟩ := s1
  rw [idsOf_node, rootId_node, sons_node, idsList_append, idsList_cons,
    idsList_nil, List.append_nil, idsOf_setDist]
  rw [idsOf_node] at hnd
  rw [← List.cons_append]
  exact hnd

/-- `unroot` on a rooted tree whose outgroup father sits strictly below
the root: it succeeds, keeps ids duplicate-free, and keeps the outgroup a
son of a node with the father's id. -/
theorem unroot_transport (rid : Int) (rd : Option Rat) (a b : RTree)
    (out w : RTree)
    (hnd : (idsOf (node rid rd [a, b])).Nodup)
    (hw : w ∈ subtrees (node rid rd [a, b]))
    (hout : out ∈ w.sons)
    (hwner : w ≠ node rid rd [a, b]) :
    ∃ r, unroot (node rid rd [a, b]) = .ok r ∧ (idsOf r).Nodup ∧
      ∃ w2 ∈ subtrees r, out ∈ w2.sons ∧ w2.rootId = w.rootId := by
  have hwab : w ∈ subtrees a ∨ w ∈ subtrees b := by
    rw [subtrees] at hw
    rcases List.mem_cons.mp hw with h0 | h1
    · exact absurd h0 hwner
    · simp only [subtreesList, List.append_nil] at h1
      exact List.mem_append.mp h1
  have hnl : ¬(a.isLeaf = true ∧ b.isLeaf = true) := by
    rintro ⟨ha, hb⟩
    have hsa : a.sons = [] := by
      rw [isLeaf] at ha
      exact List.isEmpty_iff.mp ha
    have hsb : b.sons = [] := by
      rw [isLeaf] at hb
      exact List.isEmpty_iff.mp hb
    have hta : subtrees a = [a] := by
      obtain ⟨ia, da, sa⟩ := a
      simp only [sons_node] at hsa
      subst hsa
      rfl
    have htb : subtrees b = [b] := by
      obtain ⟨ib, db, sb⟩ := b
      simp only [sons_node] at hsb
      subst hsb
      rfl
    rcases hwab with h | h
    · rw [hta] at h
      have hwa : w = a := by simpa using h
      rw [hwa, hsa] at hout
      simp at hout
    · rw [htb] at h
      have hwb : w = b := by simpa using h
      rw [hwb, hsb] at hout
      simp at hout
  have hnd2 : (idsOf a ++ idsOf b).Nodup := by
    rw [idsOf_node, idsList_cons, idsList_cons, idsList_nil,
      List.append_nil] at hnd
    exact (List.nodup_cons.mp hnd).2
  by_cases hal : a.isLeaf = true
  · -- son at position 0 is a leaf: the sons are swapped, s1 = b, s2 = a
    have hbl : b.isLeaf = false :=
      Bool.eq_false_iff.mpr (fun hb => hnl ⟨hal, hb⟩)
    have hnd3 : (idsOf b ++ idsOf a).Nodup :=
      (List.perm_append_comm).nodup hnd2
    rcases hda : b.rootDist with _ | d1 <;> rcases hdb : a.rootDist with _ | d2
    · exact ⟨node b.rootId none (b.sons ++ [a.setDist none]),
        by simp [unroot, hal, hbl, hda, hdb],
        merged_nodup b a none hnd3,
        merged_transport b a none out w hwab.symm hout⟩
    · exact ⟨node b.rootId none (b.sons ++ [a.setDist (some d2)]),
        by simp [unroot, hal, hbl, hda, hdb],
        merged_nodup b a (some d2) hnd3,
        merged_transport b a (some d2) out w hwab.symm hout⟩
    · exact ⟨node b.rootId none (b.sons ++ [a.setDist (some d1)]),
        by simp [unroot, hal, hbl, hda, hdb],
        merged_nodup b a (some d1) hnd3,
        merged_transport b a (some d1) out w hwab.symm hout⟩
    · exact ⟨node b.rootId none (b.sons ++ [a.setDist (some (d1 + d2))]),
        by simp [unroot, hal, hbl, hda, hdb],
        merged_nodup b a (some (d1 + d2)) hnd3,
        merged_transport b a (some (d1 + d2)) out w hwab.symm hout⟩
  · -- son at position 0 is a subtree: s1 = a, s2 = b
    have half : a.isLeaf = false := Bool.eq_false_iff.mpr hal
    rcases hda : a.rootDist with _ | d1 <;> rcases hdb : b.rootDist with _ | d2
    · exact ⟨node a.rootId none (a.sons ++ [b.setDist none]),
        by simp [unroot, half, hda, hdb],
        merged_nodup a b none hnd2,
        merged_transport a b none out w hwab hout⟩
    · exact ⟨node a.rootId none (a.sons ++ [b.setDist (some d2)]),
        by simp [unroot, half, hda, hdb],
        merged_nodup a b (some d2) hnd2,
        merged_transport a b (some d2) out w hwab hout⟩
    · exact ⟨node a.rootId none (a.sons ++ [b.setDist (some d1)]),
        by simp [unroot, half, hda, hdb],
        merged_nodup a b (some d1) hnd2,
        merged_transport a b (some d1) out w hwab hout⟩
    · exact ⟨node a.rootId none (a.sons ++ [b.setDist (some (d1 + d2))]),
        by simp [unroot, half, hda, hdb],
        merged_nodup a b (some (d1 + d2)) hnd2,
        merged_transport a b (some (d1 + d2)) out w hwab hout⟩

/-- `TreeTemplate::rootAt` re-roots at the father of the outgroup: the
result is rooted at `fid` and the first son carrying the outgroup id is
the untouched outgroup subtree.  When the walk starts from a two-son root
the source unroots first (line 466); the father-son pair survives that
merge by `unroot_transport`. -/
theorem rootAt_spec (t1 : RTree) (fid : Int) (w out : RTree)
    (hnd : (idsOf t1).Nodup) (hw : w ∈ subtrees t1) (hwid : w.rootId = fid)
    (hout : out ∈ w.sons) :
    ∃ d2 sons2, rootAt t1 fid = node fid d2 sons2 ∧
      sons2.find? (fun c => c.rootId == out.rootId) = some out := by
  rw [rootAt]
  by_cases hr : t1.rootId = fid
  · rw [if_pos hr]
    have hwt : w = t1 := subtrees_root_unique hnd hw (by rw [hwid, hr])
    subst hwt
    obtain ⟨i, d, s⟩ := w
    rw [idsOf_node] at hnd
    simp only [sons_node] at hout
    simp only [rootId_node] at hr
    subst hr
    exact ⟨d, s, rfl,
      find?_first_out s out (List.nodup_cons.mp hnd).2 hout⟩
  · rw [if_neg hr]
    by_cases hrooted : t1.isRooted = true
    · -- rooted tree: the source unroots before reversing the path
      have hlen2 : t1.sons.length = 2 := by
        rw [isRooted] at hrooted
        exact of_decide_eq_true hrooted
      obtain ⟨ri, rd, rs⟩ := t1
      simp only [sons_node] at hlen2
      obtain ⟨a, b, rfl⟩ := list_of_length_two rs hlen2
      have hwner : w ≠ node ri rd [a, b] := by
        intro he
        apply hr
        rw [← hwid, he]
      obtain ⟨r, hun, hndr, w2, hw2, hout2, hid2⟩ :=
        unroot_transport ri rd a b out w hnd hw hout hwner
      rw [hrooted, if_pos rfl, hun]
      simp only []
      have hnd2 : (idsOf r ++ upIds none).Nodup := by
        rw [upIds, List.append_nil]
        exact hndr
      obtain ⟨sons2, hroot, hfind⟩ :=
        rootAtDown_spec r none fid w2 out hnd2 hw2 (by rw [hid2, hwid]) hout2
      exact ⟨none, sons2, hroot, hfind⟩
    · -- unrooted tree: descend directly
      have hrootf : isRooted t1 = false := Bool.eq_false_iff.mpr hrooted
      rw [hrootf, if_neg (by simp : ¬(false = true))]
      have hnd2 : (idsOf t1 ++ upIds none).Nodup := by
        rw [upIds, List.append_nil]
        exact hnd
      obtain ⟨sons2, hroot, hfind⟩ :=
        rootAtDown_spec t1 none fid w out hnd2 hw hwid hout
      exact ⟨none, sons2, hroot, hfind⟩

/-- C8 (amended): `newOutGroup` re-roots below a fresh two-son root.  The
unrestricted claim fails when the tree is rooted and the outgroup is
already a son of the root: the source returns early without touching the
branch lengths (see `newOutGroup_claim_counterexample`).  For every other
non-root outgroup in a tree with duplicate-free node ids, after the call
the root has exactly two sons, the second of which carries the outgroup
id, and when the outgroup node carried a branch length `l` before the
call both sons carry `l / 2` afterwards. -/
theorem newOutGroup_spec (t : RTree) (outId : Int) (out0 : RTree)
    (hnr : t.rootId ≠ outId)
    (hns : ¬(t.isRooted = true ∧
      t.sons.any (fun c => c.rootId == outId) = true))
    (hnd : (idsOf t).Nodup)
    (hsub : subtreeWithId t outId = some out0) :
    ∃ a b, (newOutGroup t outId).sons = [a, b] ∧ b.rootId = outId ∧
      (∀ l, out0.rootDist = some l →
        a.rootDist = some (l / 2) ∧ b.rootDist = some (l / 2)) := by
  obtain ⟨hmem, hoid⟩ := subtreeWithId_mem t outId out0 hsub
  have hne : out0 ≠ t := by
    intro he
    rw [he] at hoid
    exact hnr hoid
  obtain ⟨w, hw, hout⟩ := father_exists t out0 hmem hne
  rw [newOutGroup, if_neg hnr, if_neg (by
    rw [Bool.and_eq_true]
    exact hns)]
  by_cases hroot : t.isRooted = true
  · -- the tree is rooted: remember the root id and unroot first
    have hlen2 : t.sons.length = 2 := by
      rw [isRooted] at hroot
      exact of_decide_eq_true hroot
    obtain ⟨ri, rd, rs⟩ := t
    simp only [sons_node] at hlen2
    obtain ⟨a, b, rfl⟩ := list_of_length_two rs hlen2
    have hwner : w ≠ node ri rd [a, b] := by
      intro he
      subst he
      apply hns
      refine ⟨hroot, List.any_eq_true.mpr ⟨out0, ?_, by simp [hoid]⟩⟩
      simpa using hout
    obtain ⟨r, hun, hndr, w2, hw2, hout2, hid2⟩ :=
      unroot_transport ri rd a b out0 w hnd hw hout hwner
    rw [hroot, if_pos rfl, if_pos rfl, hun]
    have hfid : fatherIdOf r outId = some w2.rootId :=
      fatherIdOf_finds r w2 out0 outId hndr hw2 hout2 hoid
    simp only []
    rw [hfid]
    obtain ⟨d2, sons2, hT2, hfind⟩ :=
      rootAt_spec r w2.rootId w2 out0 hndr hw2 rfl hout2
    simp only []
    rw [hT2]
    rw [hoid] at hfind
    simp only [sons_node]
    rw [hfind]
    simp only []
    cases hdist : out0.rootDist with
    | none =>
        simp only []
        refine ⟨node w2.rootId d2
          (List.eraseP (fun c => c.rootId == outId) sons2), out0,
          by simp, hoid, ?_⟩
        intro l hl
        cases hl
    | some l =>
        simp only []
        refine ⟨(node w2.rootId d2
            (List.eraseP (fun c => c.rootId == outId) sons2)).setDist
            (some (l / 2)),
          out0.setDist (some (l / 2)),
          by simp, by rw [rootId_setDist]; exact hoid, ?_⟩
        intro l2 hl2
        injection hl2 with hl2
        subst hl2
        rw [rootDist_setDist, rootDist_setDist]
        exact ⟨rfl, rfl⟩
  · -- the tree is unrooted: keep it, pick a fresh root id
    have hrootf : isRooted t = false := Bool.eq_false_iff.mpr hroot
    rw [hrootf]
    rw [if_neg (by simp : ¬(false = true)),
      if_neg (by simp : ¬(false = true))]
    have hfid : fatherIdOf t outId = some w.rootId :=
      fatherIdOf_finds t w out0 outId hnd hw hout hoid
    simp only []
    rw [hfid]
    obtain ⟨d2, sons2, hT2, hfind⟩ :=
      rootAt_spec t w.rootId w out0 hnd hw rfl hout
    simp only []
    rw [hT2]
    rw [hoid] at hfind
    simp only [sons_node]
    rw [hfind]
    simp only []
    cases hdist : out0.rootDist with
    | none =>
        simp only []
        refine ⟨node w.rootId d2
          (List.eraseP (fun c => c.rootId == outId) sons2), out0,
          by simp, hoid, ?_⟩
        intro l hl
        cases hl
    | some l =>
        simp only []
        refine ⟨(node w.rootId d2
            (List.eraseP (fun c => c.rootId == outId) sons2)).setDist
            (some (l / 2)),
          out0.setDist (some (l / 2)),
          by simp, by rw [rootId_setDist]; exact hoid, ?_⟩
        intro l2 hl2
        injection hl2 with hl2
        subst hl2
        rw [rootDist_setDist, rootDist_setDist]
        exact ⟨rfl, rfl⟩

/-- A rooted tree whose root son 2 carries branch length 1. -/
def t8 : RTree := node 0 none [node 1 (some 1) [], node 2 (some 1) []]

/-- C8, counterexample to the unrestricted claim: node 2 is not the root,
yet `newOutGroup` returns the tree unchanged (node 2 is already a root
son), so the son carrying the outgroup id keeps branch length 1 instead of
1/2. -/
theorem newOutGroup_claim_counterexample :
    t8.rootId ≠ 2 ∧
    newOutGroup t8 2 = t8 ∧
    ∀ c ∈ (newOutGroup t8 2).sons, c.rootId = 2 →
      c.rootDist ≠ some (1 / 2) := by
  refine ⟨by decide, by decide, ?_⟩
  intro c hc hcid
  have hsons : (newOutGroup t8 2).sons =
      [node 1 (some 1) [], node 2 (some 1) []] := by decide
  rw [hsons] at hc
  rcases List.mem_cons.mp hc with rfl | hc2
  · simp at hcid
  · have hc3 : c = node 2 (some 1) [] := by simpa using hc2
    subst hc3
    simp only [rootDist_node]
    intro h
    injection h with h
    norm_num at h

/-- An unrooted (three-son root) tree with outgroup node 3 at depth 2. -/
def tN : RTree := node 0 none [node 1 (some 1) [node 3 (some 4) [],
  node 4 (some 6) []], node 2 (some 2) [], node 5 (some 3) []]

/-- Witness for the amended claim C8 on the concrete tree `tN`: node 3 has
branch length 4, and after `newOutGroup tN 3` both root sons carry 2. -/
theorem newOutGroup_spec_witness :
    tN.rootId ≠ 3 ∧
    ¬(tN.isRooted = true ∧ tN.sons.any (fun c => c.rootId == 3) = true) ∧
    (idsOf tN).Nodup ∧
    subtreeWithId tN 3 = some (node 3 (some 4) []) ∧
    ∃ a b, (newOutGroup tN 3).sons = [a, b] ∧ b.rootId = 3 ∧
      (∀ l, (node 3 (some 4) []).rootDist = some l →
        a.rootDist = some (l / 2) ∧ b.rootDist = some (l / 2)) :=
  ⟨by decide, by decide, by decide, by decide,
    newOutGroup_spec tN 3 (node 3 (some 4) []) (by decide) (by decide)
      (by decide) (by decide)⟩

end RTree
end BppPhyl
